import Mathlib

/-!
# chart-releaser: release publication and index reconciliation

A shallow embedding of `pkg/releaser/releaser.go`.

Conventions of the embedding:

* Go strings are modelled as Lean strings, read as sequences of characters.  Every
  separator the code looks for (the hyphen, the dot, the slash) is a one-byte ASCII
  character, which never occurs inside a multi-byte UTF-8 sequence, so cutting at a
  character position and cutting at the corresponding byte position give the same pieces.
* A Go run-time panic (slice bounds out of range, nil dereference) is a result of its
  own, distinct from a returned `error`.
* Diagnostics printed on standard output are not part of the model.
-/

set_option autoImplicit false

namespace ChartReleaser

/-! ## Go string primitives used by the releaser -/

/-- The loop of `strings.LastIndex(s, sep)` for a one-byte `sep`: scan positions
`i-1, i-2, ..., 0` and return the first position holding `c`, or `-1`. -/
def lastIndexByte (s : List Char) (c : Char) : Nat → Int
  | 0 => -1
  | i + 1 => if s[i]? = some c then (i : Int) else lastIndexByte s c i

/-- Go `strings.LastIndex(s, string(c))` for a single character `c`. -/
def lastIndex (s : String) (c : Char) : Int :=
  lastIndexByte s.data c s.data.length

/-- Go slice expression `s[lo:hi]` on a string: panics (`none`) unless
`0 ≤ lo ≤ hi ≤ len(s)`. -/
def goSlice (s : String) (lo hi : Int) : Option String :=
  if 0 ≤ lo ∧ lo ≤ hi ∧ hi ≤ (s.data.length : Int) then
    some ⟨(s.data.drop lo.toNat).take (hi.toNat - lo.toNat)⟩
  else none

/-- Source: `Releaser.splitPackageNameAndVersion`.
`delimIndex := strings.LastIndex(pkg, "-")`,
`return []string{pkg[0:delimIndex], pkg[delimIndex+1:]}`; `none` is the slice-bounds panic. -/
def splitPackageNameAndVersion (pkg : String) : Option (List String) :=
  let delimIndex := lastIndex pkg '-'
  match goSlice pkg 0 delimIndex with
  | none => none
  | some name =>
    match goSlice pkg (delimIndex + 1) (pkg.data.length : Int) with
    | none => none
    | some version => some [name, version]

/-- The loop of Go `filepath.Ext`: scan positions `i-1, i-2, ..., 0`; stop with the empty
extension at a path separator, return `path[i:]` at the first dot met. -/
def extLoop (s : List Char) : Nat → List Char
  | 0 => []
  | i + 1 =>
    if s[i]? = some '/' then []
    else if s[i]? = some '.' then s.drop i
    else extLoop s i

/-- Go `filepath.Ext(path)` (Unix separators). -/
def ext (path : String) : String := ⟨extLoop path.data path.data.length⟩

/-- Go `filepath.Base(path)` (Unix separators): `"."` for the empty path; otherwise strip the
trailing slashes, keep what follows the last remaining slash, and return `"/"` if nothing
is left. -/
def base (path : String) : String :=
  if path.data = [] then "."
  else
    let stripped := (path.data.reverse.dropWhile (fun c => c = '/')).reverse
    let last := (stripped.reverse.takeWhile (fun c => c ≠ '/')).reverse
    if last = [] then "/" else ⟨last⟩

/-- Go `strings.TrimSuffix(s, suffix)`. -/
def trimSuffix (s suffix : String) : String :=
  if suffix.data.isSuffixOf s.data then ⟨s.data.take (s.data.length - suffix.data.length)⟩
  else s

/-- Go `strings.Split(s, string(c))` for a single character `c`, on character lists. -/
def splitChars (c : Char) : List Char → List (List Char)
  | [] => [[]]
  | x :: xs =>
    if x = c then [] :: splitChars c xs
    else
      match splitChars c xs with
      | [] => [[x]]
      | h :: t => (x :: h) :: t

/-- Go `strings.Split(s, string(c))`. -/
def split (s : String) (c : Char) : List String :=
  (splitChars c s.data).map String.mk

/-- Go `strings.Join(elems, sep)`. -/
def join : List String → String → String
  | [], _ => ""
  | [a], _ => a
  | a :: b :: rest, sep => a ++ sep ++ join (b :: rest) sep

/-- Go `strconv.FormatBool`. -/
def formatBool (b : Bool) : String := if b then "true" else "false"

/-! ## Errors and results -/

/-- Go `error` values: a plain message, or a cause decorated with a context message
(`errors.Wrapf(cause, msg)`, `fmt.Errorf("msg: %w", cause)`). -/
inductive Error where
  | msg : String → Error
  | wrap : String → Error → Error
  deriving DecidableEq

/-- Result of a Go call returning `(α, error)`: a value, an error, or a run-time panic. -/
inductive Res (α : Type) where
  | ok : α → Res α
  | err : Error → Res α
  | crash : Res α
  deriving DecidableEq

/-! ## Data model -/

/-- Source: `github.Asset`. -/
structure Asset where
  Path : String
  URL : String
  deriving DecidableEq

/-- Source: `github.Release`. -/
structure Release where
  Name : String
  Description : String
  Assets : List Asset
  Commit : String
  GenerateReleaseNotes : Bool
  MakeLatest : String
  deriving DecidableEq

/-- Modelled from the spec: helm's `chart.Metadata` (not under src/), "chart metadata
(name, semantic version, description, ...)"; only the fields the releaser reads. -/
structure Metadata where
  Name : String
  Version : String
  Description : String
  deriving DecidableEq

/-- Modelled from the spec: helm's `chart.File` (not under src/), an embedded file of a
chart: its name and its data. -/
structure File where
  Name : String
  Data : String
  deriving DecidableEq

/-- Modelled from the spec: helm's `chart.Chart` (not under src/): metadata and embedded
files. -/
structure Chart where
  Metadata : Metadata
  Files : List File
  deriving DecidableEq

/-- Modelled from the spec: helm's `repo.ChartVersion` (not under src/), a catalog entry:
"download URL(s), content digest, and creation timestamp", stored with the chart metadata
whose (name, version) is its key. -/
structure ChartVersion where
  Metadata : Metadata
  URLs : List String
  Digest : String
  Created : Nat
  deriving DecidableEq

/-- Modelled from the spec: helm's `repo.IndexFile` (not under src/), the catalog: a
"collection of CatalogEntry, addressed by (name, version) for membership tests", with "a
single generated timestamp".  Entries are kept in insertion order. -/
structure IndexFile where
  Entries : List ChartVersion
  Generated : Nat
  deriving DecidableEq

/-- Modelled from the spec: `config.Options` (pkg/config is not under src/); the fields
read by `releaser.go`. -/
structure Options where
  IndexPath : String
  PackagePath : String
  PagesIndexPath : String
  PagesBranch : String
  Remote : String
  Token : String
  Owner : String
  GitRepo : String
  Push : Bool
  PR : Bool
  ReleaseNameTemplate : String
  ReleaseNotesFile : String
  Commit : String
  GenerateReleaseNotes : Bool
  MakeReleaseLatest : Bool
  SkipExisting : Bool
  deriving DecidableEq

/-- What `url.Parse` yields that the releaser reads: the `Path` field and the result of
`String()` (field `Str`). -/
structure URL where
  Path : String
  Str : String
  deriving DecidableEq

/-- What the releaser reads of an `http.Response`: status code, status line, the body, and
whether reading the body fails after some number of characters. -/
structure Response where
  StatusCode : Nat
  Status : String
  Body : String
  readErr : Option (Nat × Error)
  deriving DecidableEq

/-- Content of a file of the modelled file system: raw bytes, or a catalog written by
`IndexFile.WriteFile` (the YAML serialisation itself is not modelled). -/
inductive Content where
  | bytes : String → Content
  | index : IndexFile → Content
  deriving DecidableEq

/-- Calls issued on the external collaborators (network, forge, version control) and
catalog writes, in the order they are issued. -/
inductive Event where
  | httpGet (url : String)
  | writeIndex (path : String) (idx : IndexFile)
  | gitAdd (dir : String) (args : List String)
  | gitCommit (dir : String) (message : String)
  | gitGetPushURL (remote : String) (token : String)
  | gitPush (dir : String) (args : List String)
  | createPullRequest (owner repo message head base : String)
  | getReleases
  | getRelease (tag : String)
  | createRelease (r : Release)
  deriving DecidableEq

/-- State the releaser runs against: the file system, the trace of calls issued so far,
the clock read by `time.Now()`, and the number of random strings drawn so far. -/
structure World where
  files : List (String × Content)
  log : List Event
  clock : Nat
  draws : Nat
  deriving DecidableEq

/-- External collaborators of the releaser, as oracles.  Library and operating-system
calls answer from their arguments; the forge (`GitHub` interface) and version control
(`Git` interface) answer from the history of calls issued so far and their arguments. -/
structure Env where
  /-- Go `url.Parse`; `none` when it returns an error (and a nil URL). -/
  urlParse : String → Option URL
  /-- Go `url.ParseRequestURI` followed by `String()`. -/
  parseRequestURI : String → Except Error String
  /-- Go `filepath.Join(dir, file)`. -/
  joinPath : String → String → String
  /-- Go `filepath.Dir`. -/
  dirOf : String → String
  /-- Go `filepath.Glob`. -/
  glob : String → Except Error (List String)
  /-- Go `os.MkdirAll`; `none` is success. -/
  mkdirAll : String → Option Error
  /-- Go `os.Create`; `none` is success. -/
  createFile : String → Option Error
  /-- Go `io.Copy` between two local files, by destination; `none` is success. -/
  copyFails : String → Option Error
  /-- Go `http.Get`. -/
  httpGet : String → Except Error Response
  /-- Helm `loader.LoadFile` on the content of an existing file. -/
  loadArchive : Content → Except Error Chart
  /-- Helm `provenance.DigestFile` on the content of an existing file. -/
  digest : Content → Except Error String
  /-- Helm `Metadata.Validate`; `none` is success. -/
  validate : Metadata → Option Error
  /-- Helm `IndexFile.SortEntries`. -/
  sortEntries : List ChartVersion → List ChartVersion
  /-- Failure of `IndexFile.WriteFile` at a path; `none` is success. -/
  writeFails : String → Option Error
  /-- Go `text/template`: parse the template and execute it on the metadata. -/
  renderTemplate : String → Metadata → Except Error String
  /-- The k-th string of length n drawn from the global random source. -/
  randomString : Nat → Nat → String
  /-- Forge `GetReleases`. -/
  ghGetReleases : List Event → Except Error (List Release)
  /-- Forge `GetRelease(tag)`: the returned release pointer (`none` is nil) and error. -/
  ghGetRelease : List Event → String → Option Release × Option Error
  /-- Forge `CreateRelease`; `none` is success. -/
  ghCreateRelease : List Event → Release → Option Error
  /-- Forge `CreatePullRequest`. -/
  ghCreatePullRequest : List Event → String → String → String → String → String →
    Except Error String
  gitAdd : List Event → String → List String → Option Error
  gitCommit : List Event → String → String → Option Error
  gitPush : List Event → String → List String → Option Error
  gitGetPushURL : List Event → String → String → Except Error String

/-! ## Operations on the state and on the catalog -/

/-- Write (create or replace) the file at `path`. -/
def World.writeFile (w : World) (path : String) (c : Content) : World :=
  { w with files := (path, c) :: w.files }

/-- Content of the file at `path`, if it exists. -/
def World.readFile (w : World) (path : String) : Option Content :=
  w.files.lookup path

/-- Record a call issued on an external collaborator. -/
def World.emit (w : World) (e : Event) : World :=
  { w with log := w.log ++ [e] }

/-- Go `time.Now()`: read the clock, which then advances. -/
def World.now (w : World) : Nat × World :=
  (w.clock, { w with clock := w.clock + 1 })

/-- Source: `const chartAssetFileExtension = ".tgz"`. -/
def chartAssetFileExtension : String := ".tgz"

/-- Modelled from the spec: helm's `repo.NewIndexFile` (not under src/): an empty catalog
stamped with the current time. -/
def NewIndexFile (now : Nat) : IndexFile := { Entries := [], Generated := now }

/-- Modelled from the spec: helm's `IndexFile.Get(name, version)` (not under src/): the
catalog is "addressed by (name, version) for membership tests"; `none` stands for the
returned error. -/
def IndexFile.Get (i : IndexFile) (name version : String) : Option ChartVersion :=
  i.Entries.find? (fun cv => cv.Metadata.Name = name ∧ cv.Metadata.Version = version)

/-- Modelled from the spec: helm's `IndexFile.Has` (not under src/): `Get` returns no error. -/
def IndexFile.Has (i : IndexFile) (name version : String) : Bool :=
  (i.Get name version).isSome

/-- Modelled from the spec: helm's `IndexFile.MustAdd(md, filename, baseURL, digest)` (not
under src/): the metadata is validated; a rejected chart leaves the catalog as it is; an
accepted one is appended as a new entry keyed by the metadata's (name, version), with the
digest, the creation time and one download URL, "the catalog-entry constructor re-appends
the filename itself" to the base URL. -/
def IndexFile.MustAdd (env : Env) (i : IndexFile) (md : Metadata)
    (filename baseURL digest : String) (w : World) : Option Error × IndexFile × World :=
  match env.validate md with
  | some e => (some (Error.wrap ("validate failed for " ++ filename) e), i, w)
  | none =>
    let u := if baseURL = "" then filename else baseURL ++ "/" ++ filename
    let (t, w1) := w.now
    (none, { i with Entries := i.Entries ++
      [{ Metadata := md, URLs := [u], Digest := digest, Created := t }] }, w1)

/-- Helm `loader.LoadFile(path)`: fails when the file cannot be opened, otherwise decodes
its content. -/
def loadFile (env : Env) (path : String) (w : World) : Except Error Chart :=
  match w.readFile path with
  | none => Except.error (Error.msg ("open " ++ path ++ ": no such file or directory"))
  | some c => env.loadArchive c

/-- Helm `provenance.DigestFile(path)`. -/
def digestFile (env : Env) (path : String) (w : World) : Except Error String :=
  match w.readFile path with
  | none => Except.error (Error.msg ("open " ++ path ++ ": no such file or directory"))
  | some c => env.digest c

/-! ## The releaser -/

/-- Source: `Releaser.computeReleaseName`: render `ReleaseNameTemplate` on the chart
metadata. -/
def computeReleaseName (env : Env) (cfg : Options) (chart : Chart) : Except Error String :=
  env.renderTemplate cfg.ReleaseNameTemplate chart.Metadata

/-- The `for _, f := range chart.Files` loop of `getReleaseNotes`: the data of the first
file named `name`, if the loop returns from inside. -/
def releaseNotesLoop (name : String) : List File → Option String
  | [] => none
  | f :: rest => if f.Name = name then some f.Data else releaseNotesLoop name rest

/-- Source: `Releaser.getReleaseNotes`. -/
def getReleaseNotes (cfg : Options) (chart : Chart) : String :=
  if cfg.ReleaseNotesFile ≠ "" then
    match releaseNotesLoop cfg.ReleaseNotesFile chart.Files with
    | some data => data
    | none => chart.Metadata.Description
  else chart.Metadata.Description

/-- Source: `Releaser.DownloadFile`. -/
def DownloadFile (env : Env) (cfg : Options) (urlStr : String) (w : World) :
    Except Error String × World :=
  let filePath := env.joinPath cfg.PackagePath (base urlStr)
  match env.mkdirAll cfg.PackagePath with
  | some e => (Except.error (Error.wrap "error creating directory" e), w)
  | none =>
    match w.readFile filePath with
    | some _ => (Except.ok filePath, w)
    | none =>
      match env.createFile filePath with
      | some e => (Except.error (Error.wrap "error creating file" e), w)
      | none =>
        let w1 := w.writeFile filePath (Content.bytes "")
        match env.parseRequestURI urlStr with
        | Except.error e => (Except.error (Error.wrap "invalid URL" e), w1)
        | Except.ok parsedURL =>
          let w2 := w1.emit (Event.httpGet parsedURL)
          match env.httpGet parsedURL with
          | Except.error e => (Except.error (Error.wrap "error sending request" e), w2)
          | Except.ok response =>
            if response.StatusCode ≠ 200 then
              (Except.error (Error.msg ("error response: " ++ response.Status)), w2)
            else
              match response.readErr with
              | some (n, e) =>
                (Except.error (Error.wrap "error saving file" e),
                  w2.writeFile filePath (Content.bytes ⟨response.Body.data.take n⟩))
              | none => (Except.ok filePath, w2.writeFile filePath (Content.bytes response.Body))

/-- Source: `Releaser.addToIndexFile`.  The catalog is updated in place in Go; here the
catalog after the call is returned next to the error. -/
def addToIndexFile (env : Env) (cfg : Options) (indexFile : IndexFile) (url : String)
    (w : World) : Option Error × IndexFile × World :=
  match DownloadFile env cfg url w with
  | (Except.error e, w1) => (some (Error.wrap "err in download" e), indexFile, w1)
  | (Except.ok arch, w1) =>
    match loadFile env arch w1 with
    | Except.error e =>
      (some (Error.wrap (arch ++ " is not a helm chart package") e), indexFile, w1)
    | Except.ok c =>
      match digestFile env arch w1 with
      | Except.error e => (some e, indexFile, w1)
      | Except.ok hash =>
        let s := split url '/'
        let s := s.take (s.length - 1)
        indexFile.MustAdd env c.Metadata (base arch) (join s "/") hash w1

/-- Outcome of the body of the asset loop of `UpdateIndexFile` for one asset. -/
inductive Step where
  /-- The loop goes on with the next asset (`continue`, or the end of the body). -/
  | next
  /-- An entry was added: `update = true; break`. -/
  | added
  /-- The function returns `false, err`. -/
  | fail (e : Error)
  /-- Run-time panic. -/
  | crash
  deriving DecidableEq

/-- Source: body of `for _, asset := range release.Assets` in `UpdateIndexFile`. -/
def scanAsset (env : Env) (cfg : Options) (asset : Asset) (indexFile : IndexFile)
    (w : World) : Step × IndexFile × World :=
  match env.urlParse asset.URL with
  | none => (Step.crash, indexFile, w)
  | some downloadURL =>
    let name := base downloadURL.Path
    if ext name ≠ chartAssetFileExtension then (Step.next, indexFile, w)
    else
      let baseName := trimSuffix name (ext name)
      match splitPackageNameAndVersion baseName with
      | none => (Step.crash, indexFile, w)
      | some tagParts =>
        match tagParts[0]?, tagParts[1]? with
        | some packageName, some packageVersion =>
          match indexFile.Get packageName packageVersion with
          | some _ => (Step.next, indexFile, w)
          | none =>
            match addToIndexFile env cfg indexFile downloadURL.Str w with
            | (some e, indexFile1, w1) => (Step.fail e, indexFile1, w1)
            | (none, indexFile1, w1) => (Step.added, indexFile1, w1)
        | _, _ => (Step.crash, indexFile, w)

/-- Source: `for _, asset := range release.Assets` in `UpdateIndexFile`; `Step.next` is
the loop running to its end without adding an entry. -/
def scanAssets (env : Env) (cfg : Options) :
    List Asset → IndexFile → World → Step × IndexFile × World
  | [], indexFile, w => (Step.next, indexFile, w)
  | asset :: rest, indexFile, w =>
    match scanAsset env cfg asset indexFile w with
    | (Step.next, indexFile1, w1) => scanAssets env cfg rest indexFile1 w1
    | r => r

/-- Source: `for _, release := range releases` in `UpdateIndexFile`, with the variable
`update`; the result is the value of `update` after the loop, or the early return. -/
def scanReleases (env : Env) (cfg : Options) :
    List Release → Bool → IndexFile → World → Res Bool × IndexFile × World
  | [], update, indexFile, w => (Res.ok update, indexFile, w)
  | release :: rest, update, indexFile, w =>
    match scanAssets env cfg release.Assets indexFile w with
    | (Step.next, indexFile1, w1) => scanReleases env cfg rest update indexFile1 w1
    | (Step.added, indexFile1, w1) => scanReleases env cfg rest true indexFile1 w1
    | (Step.fail e, indexFile1, w1) => (Res.err e, indexFile1, w1)
    | (Step.crash, indexFile1, w1) => (Res.crash, indexFile1, w1)

/-- Source: `copyFile`: open the source, create (truncate) the destination, copy. -/
def copyFile (env : Env) (srcFile dstFile : String) (w : World) : Option Error × World :=
  match w.readFile srcFile with
  | none => (some (Error.msg ("open " ++ srcFile ++ ": no such file or directory")), w)
  | some _ =>
    match env.createFile dstFile with
    | some e => (some e, w)
    | none =>
      let w1 := w.writeFile dstFile (Content.bytes "")
      match env.copyFails dstFile with
      | some e => (some e, w1)
      | none =>
        match w1.readFile srcFile with
        | some c => (none, w1.writeFile dstFile c)
        | none => (none, w1)

/-- Source: `randomString(n)`, drawing from the global random source. -/
def randomString (env : Env) (n : Nat) (w : World) : String × World :=
  (env.randomString w.draws n, { w with draws := w.draws + 1 })

/-- Source: `UpdateIndexFile` from `if !r.config.Push && !r.config.PR` on: publication of
the written catalog through version control. -/
def publishIndex (env : Env) (cfg : Options) (worktree indexYamlPath : String) (w : World) :
    Res Bool × World :=
  if !cfg.Push && !cfg.PR then (Res.ok true, w)
  else
    match copyFile env cfg.IndexPath indexYamlPath w with
    | (some e, w1) => (Res.err e, w1)
    | (none, w1) =>
      let w2 := w1.emit (Event.gitAdd worktree [indexYamlPath])
      match env.gitAdd w1.log worktree [indexYamlPath] with
      | some e => (Res.err e, w2)
      | none =>
        let w3 := w2.emit (Event.gitCommit worktree ("Update " ++ cfg.PagesIndexPath))
        match env.gitCommit w2.log worktree ("Update " ++ cfg.PagesIndexPath) with
        | some e => (Res.err e, w3)
        | none =>
          let w4 := w3.emit (Event.gitGetPushURL cfg.Remote cfg.Token)
          match env.gitGetPushURL w3.log cfg.Remote cfg.Token with
          | Except.error e => (Res.err e, w4)
          | Except.ok pushURL =>
            if cfg.Push then
              let args := [pushURL, "HEAD:refs/heads/" ++ cfg.PagesBranch]
              let w5 := w4.emit (Event.gitPush worktree args)
              match env.gitPush w4.log worktree args with
              | some e => (Res.err e, w5)
              | none => (Res.ok true, w5)
            else if cfg.PR then
              let (rnd, w4r) := randomString env 16 w4
              let branch := "chart-releaser-" ++ rnd
              let args := [pushURL, "HEAD:refs/heads/" ++ branch]
              let w5 := w4r.emit (Event.gitPush worktree args)
              match env.gitPush w4r.log worktree args with
              | some e => (Res.err e, w5)
              | none =>
                let w6 := w5.emit (Event.createPullRequest cfg.Owner cfg.GitRepo
                  "Update index.yaml" branch cfg.PagesBranch)
                match env.ghCreatePullRequest w5.log cfg.Owner cfg.GitRepo
                  "Update index.yaml" branch cfg.PagesBranch with
                | Except.error e => (Res.err e, w6)
                | Except.ok _ => (Res.ok true, w6)
            else (Res.ok true, w4)

/-- Source: `UpdateIndexFile` after the scan: `if !update` up to the end. -/
def persistIndex (env : Env) (cfg : Options) (worktree indexYamlPath : String)
    (update : Bool) (indexFile : IndexFile) (w : World) : Res Bool × World :=
  if !update then (Res.ok false, w)
  else
    match env.mkdirAll (env.dirOf cfg.IndexPath) with
    | some e => (Res.err (Error.wrap "error creating directory" e), w)
    | none =>
      let sorted := { indexFile with Entries := env.sortEntries indexFile.Entries }
      let (t, w1) := w.now
      let stamped := { sorted with Generated := t }
      let w2 := w1.emit (Event.writeIndex cfg.IndexPath stamped)
      match env.writeFails cfg.IndexPath with
      | some e => (Res.err e, w2)
      | none =>
        publishIndex env cfg worktree indexYamlPath
          (w2.writeFile cfg.IndexPath (Content.index stamped))

/-- Source: `Releaser.UpdateIndexFile`; the result is `(changed, error)` or a panic. -/
def UpdateIndexFile (env : Env) (cfg : Options) (w : World) : Res Bool × World :=
  let worktree := ""
  let indexYamlPath := env.joinPath worktree "index.yaml"
  let (t0, w0) := w.now
  let indexFile := NewIndexFile t0
  let w1 := w0.emit Event.getReleases
  match env.ghGetReleases w0.log with
  | Except.error e => (Res.err e, w1)
  | Except.ok releases =>
    match scanReleases env cfg releases false indexFile w1 with
    | (Res.ok update, indexFile1, w2) =>
      persistIndex env cfg worktree indexYamlPath update indexFile1 w2
    | (Res.err e, _, w2) => (Res.err e, w2)
    | (Res.crash, _, w2) => (Res.crash, w2)

/-- Source: `Releaser.getListOfPackages`. -/
def getListOfPackages (env : Env) (dir : String) : Except Error (List String) :=
  env.glob (env.joinPath dir "*.tgz")

/-- Source: the release descriptor built in `CreateReleases` for package `p`: the archive
as first asset, and `p.prov` as second asset when that file exists. -/
def releaseDescriptor (cfg : Options) (p : String) (ch : Chart) (releaseName : String)
    (w : World) : Release :=
  let release : Release :=
    { Name := releaseName
      Description := getReleaseNotes cfg ch
      Assets := [{ Path := p, URL := "" }]
      Commit := cfg.Commit
      GenerateReleaseNotes := cfg.GenerateReleaseNotes
      MakeLatest := formatBool cfg.MakeReleaseLatest }
  let provFile := p ++ ".prov"
  if (w.readFile provFile).isSome then
    { release with Assets := release.Assets ++ [{ Path := provFile, URL := "" }] }
  else release

/-- Source: the call `r.github.CreateRelease(context.TODO(), release)` in `CreateReleases`
and the handling of its error. -/
def createRelease (env : Env) (releaseName : String) (release : Release) (w : World) :
    Option Error × World :=
  match env.ghCreateRelease w.log release with
  | some e =>
    (some (Error.wrap ("error creating GitHub release " ++ releaseName) e),
      w.emit (Event.createRelease release))
  | none => (none, w.emit (Event.createRelease release))

/-- Source: body of `for _, p := range packages` in `CreateReleases`; `none` lets the loop
go on with the next package, `some err` is the early `return err`. -/
def releasePackage (env : Env) (cfg : Options) (p : String) (w : World) :
    Option Error × World :=
  match loadFile env p w with
  | Except.error e => (some e, w)
  | Except.ok ch =>
    match computeReleaseName env cfg ch with
    | Except.error e => (some e, w)
    | Except.ok releaseName =>
      let release := releaseDescriptor cfg p ch releaseName w
      if cfg.SkipExisting then
        match env.ghGetRelease w.log releaseName with
        | (some _, _) => (none, w.emit (Event.getRelease releaseName))
        | (none, _) => createRelease env releaseName release (w.emit (Event.getRelease releaseName))
      else createRelease env releaseName release w

/-- Source: `for _, p := range packages` in `CreateReleases`. -/
def releasePackages (env : Env) (cfg : Options) : List String → World → Option Error × World
  | [], w => (none, w)
  | p :: rest, w =>
    match releasePackage env cfg p w with
    | (some e, w1) => (some e, w1)
    | (none, w1) => releasePackages env cfg rest w1

/-- Source: `Releaser.CreateReleases`; `none` is the `nil` error. -/
def CreateReleases (env : Env) (cfg : Options) (w : World) : Option Error × World :=
  match getListOfPackages env cfg.PackagePath with
  | Except.error e => (some e, w)
  | Except.ok packages =>
    if packages.length = 0 then
      (some (Error.msg ("no charts found at " ++ cfg.PackagePath)), w)
    else releasePackages env cfg packages w

/-! ## The specification's wording, for comparison with the code -/

/-- Spec wording of the release notes: "if a notes-file name is configured, search the
chart's embedded files for an exact name match and use its content; otherwise, or if not
found, fall back to the chart's description". -/
def releaseNotesSpec (cfg : Options) (chart : Chart) : String :=
  if cfg.ReleaseNotesFile = "" then chart.Metadata.Description
  else
    match chart.Files.find? (fun f => f.Name = cfg.ReleaseNotesFile) with
    | some f => f.Data
    | none => chart.Metadata.Description

/-- An asset the scan is to ignore: its URL parses and the extension of its file name is
not `.tgz`. -/
def isOtherFile (env : Env) (asset : Asset) : Bool :=
  match env.urlParse asset.URL with
  | some downloadURL => decide (ext (base downloadURL.Path) ≠ chartAssetFileExtension)
  | none => false

/-- The release without the assets that are not chart archives. -/
def withoutOtherFiles (env : Env) (release : Release) : Release :=
  { release with Assets := release.Assets.filter (fun a => !(isOtherFile env a)) }

/-- A trace made of archive downloads only: it has no catalog write and no call on the
forge or on version control. -/
def downloadsOnly (evs : List Event) : Prop :=
  ∀ ev ∈ evs, ∃ u, ev = Event.httpGet u

/-- A catalog entry without its creation time: metadata, download URLs and digest. -/
def untimed (cv : ChartVersion) : Metadata × List String × String :=
  (cv.Metadata, cv.URLs, cv.Digest)

/-- Two entry lists that agree entry by entry, up to the creation times. -/
def sameEntries (a b : List ChartVersion) : Prop :=
  a.map untimed = b.map untimed

/-- The path under which `DownloadFile` caches the archive of a URL. -/
def cachePath (env : Env) (cfg : Options) (urlStr : String) : String :=
  env.joinPath cfg.PackagePath (base urlStr)

/-- Every cached archive of `w` is in `v`, with the same content. -/
def cacheKept (env : Env) (cfg : Options) (w v : World) : Prop :=
  ∀ u c, w.readFile (cachePath env cfg u) = some c → v.readFile (cachePath env cfg u) = some c

/-- Every file of `w` is in `v`, with the same content. -/
def filesKept (w v : World) : Prop :=
  ∀ p c, w.readFile p = some c → v.readFile p = some c

/-- The state after `IndexFile.WriteFile` wrote the catalog `idx` at `IndexPath`. -/
def catalogWritten (cfg : Options) (idx : IndexFile) (w : World) : World :=
  (w.emit (Event.writeIndex cfg.IndexPath idx)).writeFile cfg.IndexPath (Content.index idx)

/-- Source: `s := strings.Split(url, "/")`, `s = s[:len(s)-1]`, `strings.Join(s, "/")` in
`addToIndexFile`: the URL without its last segment, which `addToIndexFile` passes to
`MustAdd` as base URL. -/
def repositoryURL (url : String) : String :=
  join ((split url '/').take ((split url '/').length - 1)) "/"

/-- The parsed URL of a chart-archive asset and the (name, version) pair derived from its
file name, as `UpdateIndexFile` computes them: `none` when the URL does not parse, the
extension is not `.tgz`, or the file name cannot be split. -/
def assetKey (env : Env) (asset : Asset) : Option (URL × String × String) :=
  match env.urlParse asset.URL with
  | none => none
  | some downloadURL =>
    if ext (base downloadURL.Path) ≠ chartAssetFileExtension then none
    else
      match splitPackageNameAndVersion
          (trimSuffix (base downloadURL.Path) (ext (base downloadURL.Path))) with
      | none => none
      | some tagParts =>
        match tagParts[0]?, tagParts[1]? with
        | some packageName, some packageVersion =>
          some (downloadURL, packageName, packageVersion)
        | _, _ => none

/-- The (chart name, chart version) pair under which a catalog entry is stored. -/
def entryKey (cv : ChartVersion) : String × String :=
  (cv.Metadata.Name, cv.Metadata.Version)

/-- Catalog uniqueness: no two entries are stored under the same (name, version) pair. -/
def uniqueKeys (indexFile : IndexFile) : Prop :=
  (indexFile.Entries.map entryKey).Nodup

/-- The catalog `indexFile1`, obtained by adding the archive of `asset`, has an entry
under the pair derived from the file name of `asset`. -/
def storedUnderFileName (env : Env) (asset : Asset) (indexFile1 : IndexFile) : Bool :=
  match assetKey env asset with
  | some (_, packageName, packageVersion) => indexFile1.Has packageName packageVersion
  | none => true

/-- Along the scan of an asset list, the entry the scan adds (if any) is stored under the
pair derived from the file name of the asset it was added for: the metadata read from
the archive agree with the file name. -/
def assetsStoredUnderFileName (env : Env) (cfg : Options) :
    List Asset → IndexFile → World → Bool
  | [], _, _ => true
  | asset :: rest, indexFile, w =>
    match scanAsset env cfg asset indexFile w with
    | (Step.next, indexFile1, w1) => assetsStoredUnderFileName env cfg rest indexFile1 w1
    | (Step.added, indexFile1, _) => storedUnderFileName env asset indexFile1
    | _ => true

/-- Along the scan of a release list, every entry the scan adds is stored under the pair
derived from the file name of the asset it was added for. -/
def releasesStoredUnderFileName (env : Env) (cfg : Options) :
    List Release → IndexFile → World → Bool
  | [], _, _ => true
  | release :: rest, indexFile, w =>
    assetsStoredUnderFileName env cfg release.Assets indexFile w &&
    match scanAssets env cfg release.Assets indexFile w with
    | (Step.next, indexFile1, w1) => releasesStoredUnderFileName env cfg rest indexFile1 w1
    | (Step.added, indexFile1, w1) => releasesStoredUnderFileName env cfg rest indexFile1 w1
    | _ => true

/-- A download, metadata-extraction or digest step of `addToIndexFile` fails on `url` in
state `w`: `e` is the error `addToIndexFile` then returns (the step's error, with its
context message for the download and the loader) and `w2` the state the download left. -/
def stepFailure (env : Env) (cfg : Options) (url : String) (w : World) (e : Error)
    (w2 : World) : Prop :=
  (∃ e0, DownloadFile env cfg url w = (Except.error e0, w2) ∧
    e = Error.wrap "err in download" e0) ∨
  (∃ arch, DownloadFile env cfg url w = (Except.ok arch, w2) ∧
    ((∃ e0, loadFile env arch w2 = Except.error e0 ∧
        e = Error.wrap (arch ++ " is not a helm chart package") e0) ∨
     (∃ c, loadFile env arch w2 = Except.ok c ∧ digestFile env arch w2 = Except.error e)))

/-- The files of `v` and `w` agree at every path that is not the cache path of a URL. -/
def sameOutsideCache (env : Env) (cfg : Options) (w v : World) : Prop :=
  ∀ p, (∀ u, p ≠ cachePath env cfg u) → v.readFile p = w.readFile p

/-- A catalog write: the only event `IndexFile.WriteFile` issues. -/
def isCatalogWrite (ev : Event) : Prop :=
  ∃ path idx, ev = Event.writeIndex path idx

/-! ## A concrete environment: the scenario of `releaser_test.go` -/

/-- The chart packaged in `test-chart-0.1.0.tgz`. -/
def testChart : Chart :=
  { Metadata := { Name := "test-chart", Version := "0.1.0",
                  Description := "A Helm chart for Kubernetes" },
    Files := [{ Name := "README.md", Data := "readme" },
              { Name := "RELEASE.md", Data := "first release" }] }

/-- The release list returned by `FakeGitHub.GetReleases`: one release exposing
`test-chart-0.1.0.tgz` and `third-party-file-0.1.0.txt`. -/
def testReleases : List Release :=
  [{ Name := "testdata/release-packages/test-chart-0.1.0",
     Description := "A Helm chart for Kubernetes",
     Assets := [{ Path := "testdata/release-packages/test-chart-0.1.0.tgz",
                  URL := "https://myrepo/charts/test-chart-0.1.0.tgz" },
                { Path := "testdata/release-packages/third-party-file-0.1.0.txt",
                  URL := "https://myrepo/charts/third-party-file-0.1.0.txt" }],
     Commit := "", GenerateReleaseNotes := false, MakeLatest := "" }]

/-- The same release with its two assets listed in the opposite order. -/
def testReleasesSwapped : List Release :=
  [{ Name := "testdata/release-packages/test-chart-0.1.0",
     Description := "A Helm chart for Kubernetes",
     Assets := [{ Path := "testdata/release-packages/third-party-file-0.1.0.txt",
                  URL := "https://myrepo/charts/third-party-file-0.1.0.txt" },
                { Path := "testdata/release-packages/test-chart-0.1.0.tgz",
                  URL := "https://myrepo/charts/test-chart-0.1.0.tgz" }],
     Commit := "", GenerateReleaseNotes := false, MakeLatest := "" }]

/-- A forge and machine on which everything succeeds: URLs of the host `myrepo` parse to
their path, the archive of the test chart is served at its URL, the forge lists
`releases`, knows the release `existing` only, and refuses to create the release named
`refused`. -/
def testEnv (releases : List Release) (existing refused : String) : Env :=
  { urlParse := fun u =>
      if "https://myrepo".data.isPrefixOf u.data then some { Path := ⟨u.data.drop 14⟩, Str := u }
      else none
    parseRequestURI := fun u => Except.ok u
    joinPath := fun d f => if d = "" then f else d ++ "/" ++ f
    dirOf := fun _ => ".cr-index"
    glob := fun _ => Except.ok ["pkgs/other-0.2.0.tgz", "pkgs/test-chart-0.1.0.tgz",
      "pkgs/zeta-1.0.0.tgz"]
    mkdirAll := fun _ => none
    createFile := fun _ => none
    copyFails := fun _ => none
    httpGet := fun u =>
      if u = "https://myrepo/charts/test-chart-0.1.0.tgz" then
        Except.ok { StatusCode := 200, Status := "200 OK", Body := "test-chart archive",
                    readErr := none }
      else Except.ok { StatusCode := 404, Status := "404 Not Found", Body := "", readErr := none }
    loadArchive := fun c =>
      if c = Content.bytes "test-chart archive" then Except.ok testChart
      else if c = Content.bytes "other archive" then
        Except.ok { Metadata := { Name := "other", Version := "0.2.0", Description := "Other" },
                    Files := [] }
      else if c = Content.bytes "zeta archive" then
        Except.ok { Metadata := { Name := "zeta", Version := "1.0.0", Description := "Zeta" },
                    Files := [] }
      else Except.error (Error.msg "file does not appear to be a gzipped archive")
    digest := fun _ => Except.ok "sha256:0123"
    validate := fun _ => none
    sortEntries := fun es => es
    writeFails := fun _ => none
    renderTemplate := fun _ md => Except.ok (md.Name ++ "-" ++ md.Version)
    randomString := fun _ _ => "abcdefgh01234567"
    ghGetReleases := fun _ => Except.ok releases
    ghGetRelease := fun _ tag =>
      if tag = existing then
        (some { Name := tag, Description := "", Assets := [], Commit := "",
                GenerateReleaseNotes := false, MakeLatest := "" }, none)
      else (none, some (Error.msg "404 Not Found"))
    ghCreateRelease := fun _ r =>
      if r.Name = refused then some (Error.msg "422 Validation Failed") else none
    ghCreatePullRequest := fun _ _ _ _ _ _ => Except.ok "https://github.com/owner/repo/pull/42"
    gitAdd := fun _ _ _ => none
    gitCommit := fun _ _ _ => none
    gitPush := fun _ _ _ => none
    gitGetPushURL := fun _ _ _ => Except.ok "https://x-access-token@github.com/owner/repo" }

/-- A configuration writing the catalog locally (neither push nor pull request). -/
def testOptions : Options :=
  { IndexPath := ".cr-index/index.yaml", PackagePath := "pkgs",
    PagesIndexPath := "index.yaml", PagesBranch := "gh-pages", Remote := "origin",
    Token := "token", Owner := "owner", GitRepo := "repo", Push := false, PR := false,
    ReleaseNameTemplate := "name-version", ReleaseNotesFile := "",
    Commit := "", GenerateReleaseNotes := false, MakeReleaseLatest := true,
    SkipExisting := true }

/-- A machine with three packaged charts in `pkgs` and nothing else. -/
def testWorld : World :=
  { files := [("pkgs/other-0.2.0.tgz", Content.bytes "other archive"),
              ("pkgs/test-chart-0.1.0.tgz", Content.bytes "test-chart archive"),
              ("pkgs/zeta-1.0.0.tgz", Content.bytes "zeta archive")],
    log := [], clock := 100, draws := 0 }

/-- A machine with an empty file system. -/
def emptyWorld : World := { files := [], log := [], clock := 100, draws := 0 }

/-- The catalog written by `UpdateIndexFile` in the test scenario, started at clock 100:
one entry, for `test-chart` / `0.1.0`. -/
def testCatalog : IndexFile :=
  { Entries := [{ Metadata := testChart.Metadata,
                  URLs := ["https://myrepo/charts/test-chart-0.1.0.tgz"],
                  Digest := "sha256:0123", Created := 101 }],
    Generated := 102 }

/-- The asset `test-chart-0.1.0.tgz` of the test release. -/
def testAsset : Asset :=
  { Path := "testdata/release-packages/test-chart-0.1.0.tgz",
    URL := "https://myrepo/charts/test-chart-0.1.0.tgz" }

/-- A release list whose only chart archive cannot be downloaded (the server answers 404). -/
def missingReleases : List Release :=
  [{ Name := "does-not-exist-0.1.0", Description := "",
     Assets := [{ Path := "does-not-exist-0.1.0.tgz",
                  URL := "https://myrepo/charts/does-not-exist-0.1.0.tgz" }],
     Commit := "", GenerateReleaseNotes := false, MakeLatest := "" }]

/-- The state in which the first `UpdateIndexFile` run of the test scenario leaves the
empty machine: the archive is cached, the catalog is written. -/
def indexedWorld : World :=
  { files := [(".cr-index/index.yaml", Content.index testCatalog),
              ("pkgs/test-chart-0.1.0.tgz", Content.bytes "test-chart archive"),
              ("pkgs/test-chart-0.1.0.tgz", Content.bytes "")],
    log := [Event.getReleases,
            Event.httpGet "https://myrepo/charts/test-chart-0.1.0.tgz",
            Event.writeIndex ".cr-index/index.yaml" testCatalog],
    clock := 103, draws := 0 }

/-- The catalog written by a second `UpdateIndexFile` run of the test scenario: the same
entry with later time stamps. -/
def testCatalogAgain : IndexFile :=
  { Entries := [{ Metadata := testChart.Metadata,
                  URLs := ["https://myrepo/charts/test-chart-0.1.0.tgz"],
                  Digest := "sha256:0123", Created := 104 }],
    Generated := 105 }

/-- A release bundling two distinct charts, `other-0.2.0.tgz` and `zeta-1.0.0.tgz`. -/
def bundleReleases : List Release :=
  [{ Name := "bundle", Description := "",
     Assets := [{ Path := "other-0.2.0.tgz", URL := "https://myrepo/charts/other-0.2.0.tgz" },
                { Path := "zeta-1.0.0.tgz", URL := "https://myrepo/charts/zeta-1.0.0.tgz" }],
     Commit := "", GenerateReleaseNotes := false, MakeLatest := "" }]

/-- Two releases exposing the archive of the chart `test-chart` / `0.1.0` under two file
names: `test-chart-0.1.0.tgz` and `chart-latest.tgz`. -/
def renamedReleases : List Release :=
  [{ Name := "test-chart-0.1.0", Description := "",
     Assets := [{ Path := "test-chart-0.1.0.tgz",
                  URL := "https://myrepo/charts/test-chart-0.1.0.tgz" }],
     Commit := "", GenerateReleaseNotes := false, MakeLatest := "" },
   { Name := "latest", Description := "",
     Assets := [{ Path := "chart-latest.tgz",
                  URL := "https://myrepo/charts/chart-latest.tgz" }],
     Commit := "", GenerateReleaseNotes := false, MakeLatest := "" }]

/-- The test environment with a server that answers every URL with the archive of the
chart `test-chart` / `0.1.0`. -/
def renamedEnv : Env :=
  { testEnv renamedReleases "" "" with
    httpGet := fun _ =>
      Except.ok { StatusCode := 200, Status := "200 OK", Body := "test-chart archive",
                  readErr := none } }

/-- The catalog `UpdateIndexFile` writes for `renamedReleases` on `renamedEnv`, started at
clock 100: two entries, both stored under `test-chart` / `0.1.0`. -/
def duplicateCatalog : IndexFile :=
  { Entries := [{ Metadata := testChart.Metadata,
                  URLs := ["https://myrepo/charts/test-chart-0.1.0.tgz"],
                  Digest := "sha256:0123", Created := 101 },
                { Metadata := testChart.Metadata,
                  URLs := ["https://myrepo/charts/chart-latest.tgz"],
                  Digest := "sha256:0123", Created := 102 }],
    Generated := 103 }

/-- The test release listed twice. -/
def repeatedReleases : List Release := testReleases ++ testReleases

/-- A release list whose only asset is not a chart archive. -/
def otherOnlyReleases : List Release :=
  [{ Name := "notes", Description := "",
     Assets := [{ Path := "third-party-file-0.1.0.txt",
                  URL := "https://myrepo/charts/third-party-file-0.1.0.txt" }],
     Commit := "", GenerateReleaseNotes := false, MakeLatest := "" }]

/-- The test release followed by a release whose chart archive cannot be downloaded. -/
def partlyMissingReleases : List Release := testReleases ++ missingReleases

/-! ## Lemmas on the string primitives -/

theorem lastIndexByte_neg (s : List Char) (c : Char) (n : Nat) (hn : n ≤ s.length)
    (h : c ∉ s.take n) : lastIndexByte s c n = -1 := by
  induction n with
  | zero => rfl
  | succ i ih =>
    have hi : i < s.length := hn
    have hne : s[i]? ≠ some c := by
      intro hc
      apply h
      rw [List.mem_iff_getElem?]
      refine ⟨i, ?_⟩
      rw [List.getElem?_take]
      simp [hc]
    have hrest : c ∉ s.take i := by
      intro hc
      apply h
      have : s.take i <+: s.take (i + 1) := by
        refine (List.prefix_take_le_iff ?_).2 (Nat.le_succ i)
        exact hi
      exact this.subset hc
    simp only [lastIndexByte, hne, if_false]
    exact ih (Nat.le_of_lt hi) hrest

theorem lastIndexByte_pos (s : List Char) (c : Char) (n : Nat) (hn : n ≤ s.length)
    (h : c ∈ s.take n) :
    ∃ k : Nat, lastIndexByte s c n = (k : Int) ∧ k < n ∧ s[k]? = some c ∧
      c ∉ (s.take n).drop (k + 1) := by
  induction n with
  | zero => simp at h
  | succ i ih =>
    have hi : i < s.length := hn
    by_cases hc : s[i]? = some c
    · refine ⟨i, ?_, Nat.lt_succ_self i, hc, ?_⟩
      · simp [lastIndexByte, hc]
      · have : ((s.take (i + 1)).drop (i + 1)) = [] := by
          apply List.drop_eq_nil_of_le
          simp
        simp [this]
    · have hsplit : s.take (i + 1) = s.take i ++ [s[i]] := by
        rw [List.take_succ]
        simp [List.getElem?_eq_getElem hi]
      have hmem : c ∈ s.take i := by
        rw [hsplit] at h
        rcases List.mem_append.1 h with h1 | h1
        · exact h1
        · exfalso
          apply hc
          rw [List.getElem?_eq_getElem hi]
          simp at h1
          simp [h1]
      obtain ⟨k, hk, hlt, hget, hno⟩ := ih (Nat.le_of_lt hi) hmem
      refine ⟨k, ?_, Nat.lt_succ_of_lt hlt, hget, ?_⟩
      · simp only [lastIndexByte, hc, if_false]
        exact hk
      · rw [hsplit, List.drop_append_of_le_length]
        · intro hmem2
          rcases List.mem_append.1 hmem2 with h1 | h1
          · exact hno h1
          · apply hc
            rw [List.getElem?_eq_getElem hi]
            simp at h1
            simp [h1]
        · simp
          omega

theorem lastIndex_of_not_mem (pkg : String) (c : Char) (h : c ∉ pkg.data) :
    lastIndex pkg c = -1 := by
  unfold lastIndex
  apply lastIndexByte_neg _ _ _ (Nat.le_refl _)
  rw [List.take_length]
  exact h

theorem lastIndex_of_mem (pkg : String) (c : Char) (h : c ∈ pkg.data) :
    ∃ k : Nat, lastIndex pkg c = (k : Int) ∧ k < pkg.data.length ∧
      pkg.data = pkg.data.take k ++ c :: pkg.data.drop (k + 1) ∧ c ∉ pkg.data.drop (k + 1) := by
  unfold lastIndex
  obtain ⟨k, hk, hlt, hget, hno⟩ :=
    lastIndexByte_pos pkg.data c pkg.data.length (Nat.le_refl _)
      (by rw [List.take_length]; exact h)
  rw [List.take_length] at hno
  refine ⟨k, hk, hlt, ?_, hno⟩
  have hget2 : pkg.data[k] = c := by
    have := List.getElem?_eq_getElem hlt
    rw [this] at hget
    exact Option.some.inj hget
  conv_lhs => rw [← List.take_append_drop k pkg.data]
  congr 1
  rw [List.drop_eq_getElem_cons hlt, hget2]

/-- C2: a package name without a hyphen cannot be split: `strings.LastIndex` gives `-1`
and the slice `pkg[0:-1]` panics, so no (name, version) pair is returned. -/
theorem splitPackageNameAndVersion_no_hyphen (pkg : String) (h : '-' ∉ pkg.data) :
    splitPackageNameAndVersion pkg = none := by
  unfold splitPackageNameAndVersion
  simp only [lastIndex_of_not_mem pkg '-' h]
  have : goSlice pkg 0 (-1) = none := by
    unfold goSlice
    simp
  rw [this]

theorem splitPackageNameAndVersion_no_hyphen_witness :
    '-' ∉ "foo".data ∧ splitPackageNameAndVersion "foo" = none :=
  ⟨by decide, splitPackageNameAndVersion_no_hyphen "foo" (by decide)⟩

/-- C1: a package name containing a hyphen is split at its LAST hyphen into exactly two
parts `[name, version]`: `name ++ "-" ++ version = pkg` and `version` has no hyphen. -/
theorem splitPackageNameAndVersion_last_hyphen (pkg : String) (h : '-' ∈ pkg.data) :
    ∃ name version : String, splitPackageNameAndVersion pkg = some [name, version] ∧
      name ++ "-" ++ version = pkg ∧ '-' ∉ version.data := by
  obtain ⟨k, hk, hlt, hsplit, hno⟩ := lastIndex_of_mem pkg '-' h
  refine ⟨⟨pkg.data.take k⟩, ⟨pkg.data.drop (k + 1)⟩, ?_, ?_, hno⟩
  · unfold splitPackageNameAndVersion
    simp only [hk]
    have h1 : goSlice pkg 0 (k : Int) = some ⟨pkg.data.take k⟩ := by
      unfold goSlice
      have : (0 : Int) ≤ 0 ∧ (0 : Int) ≤ (k : Int) ∧ (k : Int) ≤ (pkg.data.length : Int) := by
        omega
      rw [if_pos this]
      simp
    have h2 : goSlice pkg ((k : Int) + 1) (pkg.data.length : Int) =
        some ⟨pkg.data.drop (k + 1)⟩ := by
      unfold goSlice
      have : (0 : Int) ≤ (k : Int) + 1 ∧ (k : Int) + 1 ≤ (pkg.data.length : Int) ∧
          (pkg.data.length : Int) ≤ (pkg.data.length : Int) := by omega
      rw [if_pos this]
      have e1 : ((k : Int) + 1).toNat = k + 1 := by omega
      have e2 : ((pkg.data.length : Int)).toNat = pkg.data.length := by omega
      rw [e1, e2]
      congr 2
      apply List.take_of_length_le
      simp
    rw [h1, h2]
  · apply String.ext
    simp only [String.data_append]
    rw [List.append_assoc]
    exact hsplit.symm

theorem splitPackageNameAndVersion_last_hyphen_witness :
    '-' ∈ "foo-bar-1.2.3".data ∧
    ∃ name version : String, splitPackageNameAndVersion "foo-bar-1.2.3" = some [name, version] ∧
      name ++ "-" ++ version = "foo-bar-1.2.3" ∧ '-' ∉ version.data :=
  ⟨by decide, splitPackageNameAndVersion_last_hyphen "foo-bar-1.2.3" (by decide)⟩

/-! ## Release notes -/

theorem releaseNotesLoop_eq_find (name : String) (files : List File) :
    releaseNotesLoop name files =
      (files.find? (fun f => f.Name = name)).map (fun f => f.Data) := by
  induction files with
  | nil => rfl
  | cons f rest ih =>
    by_cases h : f.Name = name
    · simp [releaseNotesLoop, List.find?, h]
    · simp [releaseNotesLoop, List.find?, h, ih]

/-- C10: `getReleaseNotes` returns the data of the first embedded file whose name equals
the configured release-notes file name when that name is non-empty and such a file
exists, and the chart description in every other case. -/
theorem getReleaseNotes_eq_spec (cfg : Options) (chart : Chart) :
    getReleaseNotes cfg chart = releaseNotesSpec cfg chart := by
  unfold getReleaseNotes releaseNotesSpec
  by_cases h : cfg.ReleaseNotesFile = ""
  · simp [h]
  · simp only [ne_eq, h, not_false_eq_true, if_true, if_false]
    rw [releaseNotesLoop_eq_find]
    cases List.find? (fun f => decide (f.Name = cfg.ReleaseNotesFile)) chart.Files <;> rfl

/-! ## Scanning one asset -/

theorem scanAssets_cons_next (env : Env) (cfg : Options) (asset : Asset) (rest : List Asset)
    (indexFile indexFile1 : IndexFile) (w w1 : World)
    (h : scanAsset env cfg asset indexFile w = (Step.next, indexFile1, w1)) :
    scanAssets env cfg (asset :: rest) indexFile w = scanAssets env cfg rest indexFile1 w1 := by
  simp [scanAssets, h]

/-- C4: a `.tgz` asset whose (name, version), derived from its file name, is already in the
catalog when it is scanned is skipped: the catalog and the state (files, calls issued,
clock) are exactly as before, so nothing was downloaded or added, and the scan goes on
with the next asset of the release. -/
theorem scanAsset_already_indexed (env : Env) (cfg : Options) (asset : Asset)
    (rest : List Asset) (indexFile : IndexFile) (w : World) (downloadURL : URL)
    (packageName packageVersion : String)
    (hurl : env.urlParse asset.URL = some downloadURL)
    (hext : ext (base downloadURL.Path) = chartAssetFileExtension)
    (hsplit : splitPackageNameAndVersion
      (trimSuffix (base downloadURL.Path) (ext (base downloadURL.Path))) =
        some [packageName, packageVersion])
    (hhas : indexFile.Has packageName packageVersion = true) :
    scanAsset env cfg asset indexFile w = (Step.next, indexFile, w) ∧
    scanAssets env cfg (asset :: rest) indexFile w = scanAssets env cfg rest indexFile w := by
  have hstep : scanAsset env cfg asset indexFile w = (Step.next, indexFile, w) := by
    unfold IndexFile.Has at hhas
    obtain ⟨cv, hcv⟩ := Option.isSome_iff_exists.1 hhas
    rw [hext] at hsplit
    unfold scanAsset
    simp [hurl, hext, hsplit, hcv]
  exact ⟨hstep, scanAssets_cons_next env cfg asset rest indexFile indexFile w w hstep⟩

theorem scanAsset_already_indexed_witness :
    scanAsset (testEnv testReleases "" "") testOptions testAsset testCatalog emptyWorld =
      (Step.next, testCatalog, emptyWorld) ∧
    scanAssets (testEnv testReleases "" "") testOptions [testAsset] testCatalog emptyWorld =
      scanAssets (testEnv testReleases "" "") testOptions [] testCatalog emptyWorld :=
  scanAsset_already_indexed (testEnv testReleases "" "") testOptions testAsset []
    testCatalog emptyWorld
    { Path := "/charts/test-chart-0.1.0.tgz", Str := "https://myrepo/charts/test-chart-0.1.0.tgz" }
    "test-chart" "0.1.0" (by decide) (by decide) (by decide) (by decide)

theorem scanAsset_other_file (env : Env) (cfg : Options) (asset : Asset)
    (indexFile : IndexFile) (w : World) (h : isOtherFile env asset = true) :
    scanAsset env cfg asset indexFile w = (Step.next, indexFile, w) := by
  unfold isOtherFile at h
  unfold scanAsset
  cases hu : env.urlParse asset.URL with
  | none => simp [hu] at h
  | some downloadURL =>
    simp only [hu, decide_eq_true_eq] at h
    simp [h]

theorem scanAssets_filter_other (env : Env) (cfg : Options) (assets : List Asset)
    (indexFile : IndexFile) (w : World) :
    scanAssets env cfg assets indexFile w =
      scanAssets env cfg (assets.filter (fun a => !(isOtherFile env a))) indexFile w := by
  induction assets generalizing indexFile w with
  | nil => rfl
  | cons a rest ih =>
    by_cases h : isOtherFile env a = true
    · rw [scanAssets_cons_next env cfg a rest indexFile indexFile w w
        (scanAsset_other_file env cfg a indexFile w h)]
      simp [List.filter, h, ih]
    · have hf : isOtherFile env a = false := by simpa using h
      simp only [List.filter, hf, Bool.not_false]
      simp only [scanAssets]
      rcases hs : scanAsset env cfg a indexFile w with ⟨st, i1, w1⟩
      cases st <;> simp [ih]

theorem scanReleases_without_other_files (env : Env) (cfg : Options) (releases : List Release)
    (update : Bool) (indexFile : IndexFile) (w : World) :
    scanReleases env cfg releases update indexFile w =
      scanReleases env cfg (releases.map (withoutOtherFiles env)) update indexFile w := by
  induction releases generalizing update indexFile w with
  | nil => rfl
  | cons r rest ih =>
    simp only [List.map, scanReleases, withoutOtherFiles]
    rw [← scanAssets_filter_other]
    rcases hs : scanAssets env cfg r.Assets indexFile w with ⟨st, i1, w1⟩
    cases st <;> simp [ih, withoutOtherFiles]

/-- C5: assets whose file-name extension is not `.tgz` are ignored entirely: scanning an
asset of that kind changes neither the catalog nor the state, and the scan of a release
list gives the same result, catalog and state as the scan of the list with these assets
removed.  In the test scenario (one release exposing `test-chart-0.1.0.tgz` and
`third-party-file-0.1.0.txt`, in either order) exactly one entry, `test-chart` / `0.1.0`,
is written to the catalog, and the only download is that of the `.tgz` asset. -/
theorem UpdateIndexFile_ignores_other_files :
    (∀ (env : Env) (cfg : Options) (asset : Asset) (indexFile : IndexFile) (w : World),
      isOtherFile env asset = true →
        scanAsset env cfg asset indexFile w = (Step.next, indexFile, w)) ∧
    (∀ (env : Env) (cfg : Options) (releases : List Release) (update : Bool)
      (indexFile : IndexFile) (w : World),
      scanReleases env cfg releases update indexFile w =
        scanReleases env cfg (releases.map (withoutOtherFiles env)) update indexFile w) ∧
    UpdateIndexFile (testEnv testReleases "" "") testOptions emptyWorld =
      (Res.ok true, indexedWorld) ∧
    UpdateIndexFile (testEnv testReleasesSwapped "" "") testOptions emptyWorld =
      UpdateIndexFile (testEnv testReleases "" "") testOptions emptyWorld :=
  ⟨scanAsset_other_file, scanReleases_without_other_files, by decide, by decide⟩

/-! ## Adding an archive to the catalog -/

theorem MustAdd_error (env : Env) (i i1 : IndexFile) (md : Metadata)
    (filename baseURL digest : String) (w w1 : World) (e : Error)
    (h : i.MustAdd env md filename baseURL digest w = (some e, i1, w1)) :
    i1 = i ∧ w1 = w ∧ ∃ e0, env.validate md = some e0 := by
  unfold IndexFile.MustAdd at h
  cases hv : env.validate md with
  | some e0 =>
    simp only [hv, Prod.mk.injEq] at h
    exact ⟨h.2.1.symm, h.2.2.symm, e0, rfl⟩
  | none => simp [hv, World.now] at h

theorem MustAdd_ok (env : Env) (i i1 : IndexFile) (md : Metadata)
    (filename baseURL digest : String) (w w1 : World)
    (h : i.MustAdd env md filename baseURL digest w = (none, i1, w1)) :
    env.validate md = none ∧
    i1 = { i with Entries := i.Entries ++
      [{ Metadata := md, URLs := [if baseURL = "" then filename else baseURL ++ "/" ++ filename],
         Digest := digest, Created := w.clock }] } ∧
    w1 = { w with clock := w.clock + 1 } := by
  unfold IndexFile.MustAdd at h
  cases hv : env.validate md with
  | some e0 => simp [hv] at h
  | none =>
    simp only [hv, World.now, Prod.mk.injEq, true_and] at h
    exact ⟨rfl, h.1.symm, h.2.symm⟩

theorem Has_append_self (i : IndexFile) (cv : ChartVersion) :
    IndexFile.Has { i with Entries := i.Entries ++ [cv] } cv.Metadata.Name cv.Metadata.Version
      = true := by
  unfold IndexFile.Has IndexFile.Get
  rw [List.find?_isSome]
  exact ⟨cv, by simp, by simp⟩

/-- C6: `addToIndexFile` on a catalog holding no entry for (name, version): when it returns
an error the catalog is unchanged and still has no entry for (name, version), and the
error is that of the download, of the chart loader, of the digest or of the catalog's
validation; when it returns no error the catalog has an entry for the (name, version)
of the chart loaded from the downloaded archive. -/
theorem addToIndexFile_catalog (env : Env) (cfg : Options) (indexFile : IndexFile)
    (url : String) (w : World) (name version : String)
    (hno : indexFile.Has name version = false) :
    (∀ e indexFile1 w1, addToIndexFile env cfg indexFile url w = (some e, indexFile1, w1) →
      indexFile1 = indexFile ∧ indexFile1.Has name version = false ∧
      ((∃ e0, (DownloadFile env cfg url w).1 = Except.error e0 ∧
          e = Error.wrap "err in download" e0) ∨
       (∃ arch w0, DownloadFile env cfg url w = (Except.ok arch, w0) ∧
          ((∃ e0, loadFile env arch w0 = Except.error e0 ∧
              e = Error.wrap (arch ++ " is not a helm chart package") e0) ∨
           digestFile env arch w0 = Except.error e ∨
           (∃ c e0, loadFile env arch w0 = Except.ok c ∧ env.validate c.Metadata = some e0))))) ∧
    (∀ indexFile1 w1, addToIndexFile env cfg indexFile url w = (none, indexFile1, w1) →
      ∃ arch w0 c, DownloadFile env cfg url w = (Except.ok arch, w0) ∧
        loadFile env arch w0 = Except.ok c ∧
        indexFile1.Has c.Metadata.Name c.Metadata.Version = true) := by
  constructor
  · intro e indexFile1 w1 h
    unfold addToIndexFile at h
    rcases hd : DownloadFile env cfg url w with ⟨r, w0⟩
    rw [hd] at h
    cases r with
    | error e0 =>
      simp only [Prod.mk.injEq, Option.some.injEq] at h
      obtain ⟨he, hi, _⟩ := h
      subst hi
      exact ⟨rfl, hno, Or.inl ⟨e0, rfl, he.symm⟩⟩
    | ok arch =>
      simp only at h
      cases hl : loadFile env arch w0 with
      | error e0 =>
        rw [hl] at h
        simp only [Prod.mk.injEq, Option.some.injEq] at h
        obtain ⟨he, hi, _⟩ := h
        subst hi
        exact ⟨rfl, hno, Or.inr ⟨arch, w0, rfl, Or.inl ⟨e0, hl, he.symm⟩⟩⟩
      | ok c =>
        rw [hl] at h
        simp only at h
        cases hg : digestFile env arch w0 with
        | error e0 =>
          rw [hg] at h
          simp only [Prod.mk.injEq, Option.some.injEq] at h
          obtain ⟨he, hi, _⟩ := h
          subst hi
          subst he
          exact ⟨rfl, hno, Or.inr ⟨arch, w0, rfl, Or.inr (Or.inl hg)⟩⟩
        | ok hash =>
          rw [hg] at h
          simp only at h
          obtain ⟨hi, _, e0, hv⟩ := MustAdd_error env _ _ _ _ _ _ _ _ _ h
          subst hi
          exact ⟨rfl, hno, Or.inr ⟨arch, w0, rfl, Or.inr (Or.inr ⟨c, e0, hl, hv⟩)⟩⟩
  · intro indexFile1 w1 h
    unfold addToIndexFile at h
    rcases hd : DownloadFile env cfg url w with ⟨r, w0⟩
    rw [hd] at h
    cases r with
    | error e0 => simp at h
    | ok arch =>
      simp only at h
      cases hl : loadFile env arch w0 with
      | error e0 => rw [hl] at h; simp at h
      | ok c =>
        rw [hl] at h
        simp only at h
        cases hg : digestFile env arch w0 with
        | error e0 => rw [hg] at h; simp at h
        | ok hash =>
          rw [hg] at h
          simp only at h
          obtain ⟨_, hi, _⟩ := MustAdd_ok env _ _ _ _ _ _ _ _ h
          refine ⟨arch, w0, c, rfl, hl, ?_⟩
          rw [hi]
          exact Has_append_self indexFile _

theorem addToIndexFile_catalog_witness :
    (NewIndexFile 100).Has "test-chart" "0.1.0" = false ∧
    ∃ arch w0 c,
      DownloadFile (testEnv testReleases "" "") testOptions
        "https://myrepo/charts/test-chart-0.1.0.tgz" emptyWorld = (Except.ok arch, w0) ∧
      loadFile (testEnv testReleases "" "") arch w0 = Except.ok c ∧
      (addToIndexFile (testEnv testReleases "" "") testOptions (NewIndexFile 100)
        "https://myrepo/charts/test-chart-0.1.0.tgz" emptyWorld).2.1.Has
          c.Metadata.Name c.Metadata.Version = true :=
  ⟨by decide,
    (addToIndexFile_catalog (testEnv testReleases "" "") testOptions (NewIndexFile 100)
      "https://myrepo/charts/test-chart-0.1.0.tgz" emptyWorld "test-chart" "0.1.0"
      (by decide)).2
      (addToIndexFile (testEnv testReleases "" "") testOptions (NewIndexFile 100)
        "https://myrepo/charts/test-chart-0.1.0.tgz" emptyWorld).2.1
      (addToIndexFile (testEnv testReleases "" "") testOptions (NewIndexFile 100)
        "https://myrepo/charts/test-chart-0.1.0.tgz" emptyWorld).2.2
      (by decide)⟩

/-! ## The trace of the scan -/

theorem DownloadFile_log (env : Env) (cfg : Options) (urlStr : String) (w : World) :
    ∃ evs, (DownloadFile env cfg urlStr w).2.log = w.log ++ evs ∧ downloadsOnly evs := by
  unfold DownloadFile
  simp only
  split
  · exact ⟨[], by simp, by simp [downloadsOnly]⟩
  · split
    · exact ⟨[], by simp, by simp [downloadsOnly]⟩
    · split
      · exact ⟨[], by simp, by simp [downloadsOnly]⟩
      · split
        · exact ⟨[], by simp [World.writeFile], by simp [downloadsOnly]⟩
        · rename_i parsedURL _
          have hd : downloadsOnly [Event.httpGet parsedURL] := by
            intro ev hev
            exact ⟨parsedURL, by simpa using hev⟩
          split
          · exact ⟨_, by simp [World.writeFile, World.emit], hd⟩
          · split
            · exact ⟨_, by simp [World.writeFile, World.emit], hd⟩
            · split
              · exact ⟨_, by simp [World.writeFile, World.emit], hd⟩
              · exact ⟨_, by simp [World.writeFile, World.emit], hd⟩

theorem MustAdd_log (env : Env) (i : IndexFile) (md : Metadata)
    (filename baseURL digest : String) (w : World) :
    (i.MustAdd env md filename baseURL digest w).2.2.log = w.log := by
  unfold IndexFile.MustAdd
  split <;> simp [World.now]

theorem addToIndexFile_log (env : Env) (cfg : Options) (indexFile : IndexFile) (url : String)
    (w : World) :
    ∃ evs, (addToIndexFile env cfg indexFile url w).2.2.log = w.log ++ evs ∧
      downloadsOnly evs := by
  obtain ⟨evs, h1, h2⟩ := DownloadFile_log env cfg url w
  refine ⟨evs, ?_, h2⟩
  unfold addToIndexFile
  rcases hd : DownloadFile env cfg url w with ⟨r, w0⟩
  rw [hd] at h1
  cases r with
  | error e0 => exact h1
  | ok arch =>
    simp only
    split
    · exact h1
    · split
      · exact h1
      · rw [MustAdd_log]
        exact h1

/-- The four ways the body of the asset loop can end. -/
theorem scanAsset_cases (env : Env) (cfg : Options) (asset : Asset) (indexFile : IndexFile)
    (w : World) :
    scanAsset env cfg asset indexFile w = (Step.next, indexFile, w) ∨
    scanAsset env cfg asset indexFile w = (Step.crash, indexFile, w) ∨
    (∃ url e indexFile1 w1, addToIndexFile env cfg indexFile url w = (some e, indexFile1, w1) ∧
      scanAsset env cfg asset indexFile w = (Step.fail e, indexFile1, w1)) ∨
    (∃ url indexFile1 w1, addToIndexFile env cfg indexFile url w = (none, indexFile1, w1) ∧
      scanAsset env cfg asset indexFile w = (Step.added, indexFile1, w1)) := by
  unfold scanAsset
  split
  · exact Or.inr (Or.inl rfl)
  · rename_i downloadURL _
    simp only
    split
    · exact Or.inl rfl
    · split
      · exact Or.inr (Or.inl rfl)
      · split
        · split
          · exact Or.inl rfl
          · rcases ha : addToIndexFile env cfg indexFile downloadURL.Str w with ⟨oe, i1, w1⟩
            cases oe with
            | some e => exact Or.inr (Or.inr (Or.inl ⟨_, e, i1, w1, ha, rfl⟩))
            | none => exact Or.inr (Or.inr (Or.inr ⟨_, i1, w1, ha, rfl⟩))
        · exact Or.inr (Or.inl rfl)

theorem downloadsOnly_append (a b : List Event) (ha : downloadsOnly a) (hb : downloadsOnly b) :
    downloadsOnly (a ++ b) := by
  intro ev hev
  rcases List.mem_append.1 hev with h | h
  · exact ha ev h
  · exact hb ev h

theorem scanAsset_log (env : Env) (cfg : Options) (asset : Asset) (indexFile : IndexFile)
    (w : World) :
    ∃ evs, (scanAsset env cfg asset indexFile w).2.2.log = w.log ++ evs ∧
      downloadsOnly evs := by
  rcases scanAsset_cases env cfg asset indexFile w with h | h | ⟨url, e, i1, w1, ha, h⟩ |
    ⟨url, i1, w1, ha, h⟩
  · exact ⟨[], by simp [h], by simp [downloadsOnly]⟩
  · exact ⟨[], by simp [h], by simp [downloadsOnly]⟩
  · obtain ⟨evs, h1, h2⟩ := addToIndexFile_log env cfg indexFile url w
    rw [ha] at h1
    exact ⟨evs, by rw [h]; exact h1, h2⟩
  · obtain ⟨evs, h1, h2⟩ := addToIndexFile_log env cfg indexFile url w
    rw [ha] at h1
    exact ⟨evs, by rw [h]; exact h1, h2⟩

theorem scanAssets_log (env : Env) (cfg : Options) (assets : List Asset)
    (indexFile : IndexFile) (w : World) :
    ∃ evs, (scanAssets env cfg assets indexFile w).2.2.log = w.log ++ evs ∧
      downloadsOnly evs := by
  induction assets generalizing indexFile w with
  | nil => exact ⟨[], by simp [scanAssets], by simp [downloadsOnly]⟩
  | cons a rest ih =>
    obtain ⟨evs, h1, h2⟩ := scanAsset_log env cfg a indexFile w
    rcases hs : scanAsset env cfg a indexFile w with ⟨st, i1, w1⟩
    rw [hs] at h1
    simp only at h1
    cases st with
    | next =>
      obtain ⟨evs2, h3, h4⟩ := ih i1 w1
      refine ⟨evs ++ evs2, ?_, downloadsOnly_append _ _ h2 h4⟩
      simp only [scanAssets, hs]
      rw [h3, h1, List.append_assoc]
    | added => exact ⟨evs, by simp only [scanAssets, hs]; exact h1, h2⟩
    | fail e => exact ⟨evs, by simp only [scanAssets, hs]; exact h1, h2⟩
    | crash => exact ⟨evs, by simp only [scanAssets, hs]; exact h1, h2⟩

theorem scanReleases_log (env : Env) (cfg : Options) (releases : List Release)
    (update : Bool) (indexFile : IndexFile) (w : World) :
    ∃ evs, (scanReleases env cfg releases update indexFile w).2.2.log = w.log ++ evs ∧
      downloadsOnly evs := by
  induction releases generalizing update indexFile w with
  | nil => exact ⟨[], by simp [scanReleases], by simp [downloadsOnly]⟩
  | cons r rest ih =>
    obtain ⟨evs, h1, h2⟩ := scanAssets_log env cfg r.Assets indexFile w
    rcases hs : scanAssets env cfg r.Assets indexFile w with ⟨st, i1, w1⟩
    rw [hs] at h1
    simp only at h1
    cases st with
    | next =>
      obtain ⟨evs2, h3, h4⟩ := ih update i1 w1
      refine ⟨evs ++ evs2, ?_, downloadsOnly_append _ _ h2 h4⟩
      simp only [scanReleases, hs]
      rw [h3, h1, List.append_assoc]
    | added =>
      obtain ⟨evs2, h3, h4⟩ := ih true i1 w1
      refine ⟨evs ++ evs2, ?_, downloadsOnly_append _ _ h2 h4⟩
      simp only [scanReleases, hs]
      rw [h3, h1, List.append_assoc]
    | fail e => exact ⟨evs, by simp only [scanReleases, hs]; exact h1, h2⟩
    | crash => exact ⟨evs, by simp only [scanReleases, hs]; exact h1, h2⟩

/-! ## Outcomes of the scan -/

theorem scanAssets_next (env : Env) (cfg : Options) (assets : List Asset)
    (indexFile indexFile1 : IndexFile) (w w1 : World)
    (h : scanAssets env cfg assets indexFile w = (Step.next, indexFile1, w1)) :
    indexFile1 = indexFile ∧ w1 = w := by
  induction assets generalizing indexFile w with
  | nil =>
    simp only [scanAssets, Prod.mk.injEq, true_and] at h
    exact ⟨h.1.symm, h.2.symm⟩
  | cons a rest ih =>
    rcases scanAsset_cases env cfg a indexFile w with hs | hs | ⟨url, e, i1, w0, _, hs⟩ |
      ⟨url, i1, w0, _, hs⟩
    · simp only [scanAssets, hs] at h
      exact ih indexFile w h
    · simp [scanAssets, hs] at h
    · simp [scanAssets, hs] at h
    · simp [scanAssets, hs] at h

theorem scanReleases_ok_false (env : Env) (cfg : Options) (releases : List Release)
    (update : Bool) (indexFile indexFile1 : IndexFile) (w w1 : World)
    (h : scanReleases env cfg releases update indexFile w = (Res.ok false, indexFile1, w1)) :
    update = false ∧ indexFile1 = indexFile ∧ w1 = w := by
  induction releases generalizing update indexFile w with
  | nil =>
    simp only [scanReleases, Prod.mk.injEq, Res.ok.injEq] at h
    exact ⟨h.1, h.2.1.symm, h.2.2.symm⟩
  | cons r rest ih =>
    rcases hs : scanAssets env cfg r.Assets indexFile w with ⟨st, i1, w0⟩
    cases st with
    | next =>
      obtain ⟨hi, hw⟩ := scanAssets_next env cfg r.Assets indexFile i1 w w0 hs
      simp only [scanReleases, hs] at h
      subst hi
      subst hw
      exact ih update i1 w0 h
    | added =>
      simp only [scanReleases, hs] at h
      have := (ih true i1 w0 h).1
      simp at this
    | fail e => simp [scanReleases, hs] at h
    | crash => simp [scanReleases, hs] at h

theorem scanAssets_fail (env : Env) (cfg : Options) (assets : List Asset)
    (indexFile indexFile1 : IndexFile) (w w1 : World) (e : Error)
    (h : scanAssets env cfg assets indexFile w = (Step.fail e, indexFile1, w1)) :
    ∃ indexFile0 url w0,
      addToIndexFile env cfg indexFile0 url w0 = (some e, indexFile1, w1) := by
  induction assets generalizing indexFile w with
  | nil => simp [scanAssets] at h
  | cons a rest ih =>
    rcases scanAsset_cases env cfg a indexFile w with hs | hs | ⟨url, e0, i1, w0, ha, hs⟩ |
      ⟨url, i1, w0, _, hs⟩
    · simp only [scanAssets, hs] at h
      exact ih indexFile w h
    · simp [scanAssets, hs] at h
    · simp only [scanAssets, hs, Prod.mk.injEq, Step.fail.injEq] at h
      obtain ⟨he, hi, hw⟩ := h
      subst he
      subst hi
      subst hw
      exact ⟨indexFile, url, w, ha⟩
    · simp [scanAssets, hs] at h

theorem scanReleases_err (env : Env) (cfg : Options) (releases : List Release)
    (update : Bool) (indexFile indexFile1 : IndexFile) (w w1 : World) (e : Error)
    (h : scanReleases env cfg releases update indexFile w = (Res.err e, indexFile1, w1)) :
    ∃ indexFile0 url w0,
      addToIndexFile env cfg indexFile0 url w0 = (some e, indexFile1, w1) := by
  induction releases generalizing update indexFile w with
  | nil => simp [scanReleases] at h
  | cons r rest ih =>
    rcases hs : scanAssets env cfg r.Assets indexFile w with ⟨st, i1, w0⟩
    cases st with
    | next =>
      simp only [scanReleases, hs] at h
      exact ih update i1 w0 h
    | added =>
      simp only [scanReleases, hs] at h
      exact ih true i1 w0 h
    | fail e0 =>
      simp only [scanReleases, hs, Prod.mk.injEq, Res.err.injEq] at h
      obtain ⟨he, hi, hw⟩ := h
      subst he
      subst hi
      subst hw
      exact scanAssets_fail env cfg r.Assets indexFile i1 w w0 e0 hs
    | crash => simp [scanReleases, hs] at h

/-- When the scan of the release list does not end with `update = true`, `UpdateIndexFile`
returns the outcome of the scan with the state the scan left, and after `GetReleases`
its trace holds archive downloads only. -/
theorem UpdateIndexFile_scan_outcome (env : Env) (cfg : Options) (w : World)
    (releases : List Release) (r : Res Bool) (indexFile1 : IndexFile) (w1 : World)
    (hrel : env.ghGetReleases w.log = Except.ok releases)
    (hscan : scanReleases env cfg releases false (NewIndexFile w.clock)
      (w.now.2.emit Event.getReleases) = (r, indexFile1, w1))
    (hr : r ≠ Res.ok true) :
    UpdateIndexFile env cfg w = (r, w1) ∧
    (∃ evs, w1.log = w.log ++ Event.getReleases :: evs ∧ downloadsOnly evs) ∧
    (r = Res.ok false →
      indexFile1 = NewIndexFile w.clock ∧ w1 = w.now.2.emit Event.getReleases) ∧
    (∀ e, r = Res.err e → ∃ indexFile0 url w0,
      addToIndexFile env cfg indexFile0 url w0 = (some e, indexFile1, w1)) := by
  refine ⟨?_, ?_, ?_, ?_⟩
  · unfold UpdateIndexFile
    have hlog : (w.now).2.log = w.log := rfl
    simp only [World.now] at hscan ⊢
    simp only [hrel, hscan]
    cases r with
    | ok b =>
      cases b with
      | true => exact absurd rfl hr
      | false => simp [persistIndex]
    | err e => rfl
    | crash => rfl
  · obtain ⟨evs, h1, h2⟩ := scanReleases_log env cfg releases false (NewIndexFile w.clock)
      (w.now.2.emit Event.getReleases)
    rw [hscan] at h1
    refine ⟨evs, ?_, h2⟩
    rw [h1]
    simp [World.emit, World.now]
  · intro hok
    subst hok
    obtain ⟨_, hi, hw⟩ := scanReleases_ok_false env cfg releases false _ _ _ _ hscan
    exact ⟨hi, hw⟩
  · intro e he
    subst he
    exact scanReleases_err env cfg releases false _ _ _ _ e hscan

/-! ## Publishing releases -/

/-- C8: with skip-existing enabled, a package whose release name is found on the forge
(`GetRelease` returns a release, whatever the error next to it) is skipped: the only
call issued for it is that `GetRelease`, so no `CreateRelease`; no error is raised and the
loop goes on with the next package.  When the lookup returns no release (a nil release,
with or without an error such as not-found) `CreateRelease` is called with the
release descriptor of the package. -/
theorem releasePackage_skip_existing (env : Env) (cfg : Options) (p : String)
    (rest : List String) (w : World) (ch : Chart) (releaseName : String)
    (hskip : cfg.SkipExisting = true)
    (hload : loadFile env p w = Except.ok ch)
    (hname : computeReleaseName env cfg ch = Except.ok releaseName) :
    (∀ existing err, env.ghGetRelease w.log releaseName = (some existing, err) →
      releasePackage env cfg p w = (none, w.emit (Event.getRelease releaseName)) ∧
      releasePackages env cfg (p :: rest) w =
        releasePackages env cfg rest (w.emit (Event.getRelease releaseName))) ∧
    (∀ err, env.ghGetRelease w.log releaseName = (none, err) →
      releasePackage env cfg p w =
        createRelease env releaseName (releaseDescriptor cfg p ch releaseName w)
          (w.emit (Event.getRelease releaseName)) ∧
      (releasePackage env cfg p w).2 =
        (w.emit (Event.getRelease releaseName)).emit
          (Event.createRelease (releaseDescriptor cfg p ch releaseName w))) := by
  constructor
  · intro existing err hget
    have hstep : releasePackage env cfg p w =
        (none, w.emit (Event.getRelease releaseName)) := by
      unfold releasePackage
      simp [hload, hname, hskip, hget]
    exact ⟨hstep, by simp [releasePackages, hstep]⟩
  · intro err hget
    have hstep : releasePackage env cfg p w =
        createRelease env releaseName (releaseDescriptor cfg p ch releaseName w)
          (w.emit (Event.getRelease releaseName)) := by
      unfold releasePackage
      simp [hload, hname, hskip, hget]
    refine ⟨hstep, ?_⟩
    rw [hstep]
    unfold createRelease
    split <;> rfl

theorem releasePackage_skip_existing_witness :
    releasePackage (testEnv testReleases "test-chart-0.1.0" "") testOptions
      "pkgs/test-chart-0.1.0.tgz" testWorld =
        (none, testWorld.emit (Event.getRelease "test-chart-0.1.0")) ∧
    (CreateReleases (testEnv testReleases "test-chart-0.1.0" "") testOptions testWorld).2.log =
      [Event.getRelease "other-0.2.0",
       Event.createRelease
         { Name := "other-0.2.0", Description := "Other",
           Assets := [{ Path := "pkgs/other-0.2.0.tgz", URL := "" }], Commit := "",
           GenerateReleaseNotes := false, MakeLatest := "true" },
       Event.getRelease "test-chart-0.1.0",
       Event.getRelease "zeta-1.0.0",
       Event.createRelease
         { Name := "zeta-1.0.0", Description := "Zeta",
           Assets := [{ Path := "pkgs/zeta-1.0.0.tgz", URL := "" }], Commit := "",
           GenerateReleaseNotes := false, MakeLatest := "true" }] :=
  ⟨((releasePackage_skip_existing (testEnv testReleases "test-chart-0.1.0" "") testOptions
      "pkgs/test-chart-0.1.0.tgz" [] testWorld testChart "test-chart-0.1.0" rfl rfl rfl).1
      { Name := "test-chart-0.1.0", Description := "", Assets := [], Commit := "",
        GenerateReleaseNotes := false, MakeLatest := "" } none rfl).1,
    by decide⟩

theorem releasePackages_append (env : Env) (cfg : Options) (pre post : List String)
    (w w1 : World) (h : releasePackages env cfg pre w = (none, w1)) :
    releasePackages env cfg (pre ++ post) w = releasePackages env cfg post w1 := by
  induction pre generalizing w with
  | nil =>
    simp only [releasePackages, Prod.mk.injEq, true_and] at h
    subst h
    rfl
  | cons p rest ih =>
    rcases hs : releasePackage env cfg p w with ⟨oe, w0⟩
    cases oe with
    | some e => simp [releasePackages, hs] at h
    | none =>
      simp only [releasePackages, hs] at h
      simp only [List.cons_append, releasePackages, hs]
      exact ih w0 h

theorem createRelease_log (env : Env) (releaseName : String) (release : Release) (w : World) :
    (createRelease env releaseName release w).2 = w.emit (Event.createRelease release) := by
  unfold createRelease
  split <;> rfl

theorem releasePackage_log (env : Env) (cfg : Options) (p : String) (w : World) :
    w.log <+: (releasePackage env cfg p w).2.log := by
  unfold releasePackage
  split
  · exact List.prefix_refl _
  · split
    · exact List.prefix_refl _
    · simp only
      split
      · split
        · simp [World.emit]
        · rw [createRelease_log]
          simp only [World.emit, List.append_assoc]
          exact List.prefix_append _ _
      · rw [createRelease_log]
        simp [World.emit]

theorem releasePackages_log (env : Env) (cfg : Options) (packages : List String) (w : World) :
    w.log <+: (releasePackages env cfg packages w).2.log := by
  induction packages generalizing w with
  | nil => exact List.prefix_refl _
  | cons p rest ih =>
    have h1 := releasePackage_log env cfg p w
    rcases hs : releasePackage env cfg p w with ⟨oe, w0⟩
    rw [hs] at h1
    cases oe with
    | some e => simpa [releasePackages, hs] using h1
    | none =>
      simp only [releasePackages, hs]
      exact List.IsPrefix.trans h1 (ih w0)

/-- C9: when the forge's `CreateRelease` fails for a package, after the packages before it
were processed without error, `CreateReleases` returns the forge error wrapped with
"error creating GitHub release <name>"; the state it leaves is the one right after the
failing call, whatever packages follow, so no `GetRelease` or `CreateRelease` is issued
for a later package; and every call issued for the earlier packages, their
created releases included, is still in the trace: nothing is undone. -/
theorem CreateReleases_aborts_on_failure (env : Env) (cfg : Options) (w w1 : World)
    (pre post : List String) (p : String) (ch : Chart) (releaseName : String) (e : Error)
    (hglob : getListOfPackages env cfg.PackagePath = Except.ok (pre ++ p :: post))
    (hpre : releasePackages env cfg pre w = (none, w1))
    (hload : loadFile env p w1 = Except.ok ch)
    (hname : computeReleaseName env cfg ch = Except.ok releaseName)
    (hlookup : cfg.SkipExisting = true → (env.ghGetRelease w1.log releaseName).1 = none)
    (hfail : env.ghCreateRelease
      (if cfg.SkipExisting then w1.emit (Event.getRelease releaseName) else w1).log
      (releaseDescriptor cfg p ch releaseName w1) = some e) :
    CreateReleases env cfg w =
      (some (Error.wrap ("error creating GitHub release " ++ releaseName) e),
        (if cfg.SkipExisting then w1.emit (Event.getRelease releaseName) else w1).emit
          (Event.createRelease (releaseDescriptor cfg p ch releaseName w1))) ∧
    w.log <+: w1.log := by
  constructor
  · unfold CreateReleases
    simp only [hglob]
    have hlen : ¬ (pre ++ p :: post).length = 0 := by simp
    rw [if_neg hlen, releasePackages_append env cfg pre (p :: post) w w1 hpre]
    have hstep : releasePackage env cfg p w1 =
        (some (Error.wrap ("error creating GitHub release " ++ releaseName) e),
          (if cfg.SkipExisting then w1.emit (Event.getRelease releaseName) else w1).emit
            (Event.createRelease (releaseDescriptor cfg p ch releaseName w1))) := by
      unfold releasePackage
      simp only [hload, hname]
      cases hs : cfg.SkipExisting with
      | true =>
        have hnone := hlookup hs
        rcases hg : env.ghGetRelease w1.log releaseName with ⟨rel, err⟩
        rw [hg] at hnone
        simp only at hnone
        subst hnone
        simp only [hs, if_true] at hfail
        simp [createRelease, hfail]
      | false =>
        simp only [hs, Bool.false_eq_true, if_false] at hfail
        simp [createRelease, hfail]
    simp [releasePackages, hstep]
  · have := releasePackages_log env cfg pre w
    rw [hpre] at this
    exact this

theorem CreateReleases_aborts_on_failure_witness :
    CreateReleases (testEnv testReleases "" "test-chart-0.1.0") testOptions testWorld =
      (some (Error.wrap "error creating GitHub release test-chart-0.1.0"
          (Error.msg "422 Validation Failed")),
        { testWorld with log :=
          [Event.getRelease "other-0.2.0",
           Event.createRelease
             { Name := "other-0.2.0", Description := "Other",
               Assets := [{ Path := "pkgs/other-0.2.0.tgz", URL := "" }], Commit := "",
               GenerateReleaseNotes := false, MakeLatest := "true" },
           Event.getRelease "test-chart-0.1.0",
           Event.createRelease
             { Name := "test-chart-0.1.0", Description := "A Helm chart for Kubernetes",
               Assets := [{ Path := "pkgs/test-chart-0.1.0.tgz", URL := "" }], Commit := "",
               GenerateReleaseNotes := false, MakeLatest := "true" }] }) :=
  (CreateReleases_aborts_on_failure (testEnv testReleases "" "test-chart-0.1.0") testOptions
    testWorld
    (releasePackages (testEnv testReleases "" "test-chart-0.1.0") testOptions
      ["pkgs/other-0.2.0.tgz"] testWorld).2
    ["pkgs/other-0.2.0.tgz"] ["pkgs/zeta-1.0.0.tgz"] "pkgs/test-chart-0.1.0.tgz" testChart
    "test-chart-0.1.0" (Error.msg "422 Validation Failed") rfl (by decide) rfl rfl
    (fun _ => rfl) rfl).1

/-! ## Files and the download cache -/

theorem readFile_writeFile_ne (w : World) (p q : String) (c : Content) (h : p ≠ q) :
    (w.writeFile q c).readFile p = w.readFile p := by
  have hb : (p == q) = false := by simpa using h
  simp [World.readFile, World.writeFile, List.lookup, hb]

theorem readFile_writeFile_same (w : World) (p : String) (c : Content) :
    (w.writeFile p c).readFile p = some c := by
  simp [World.readFile, World.writeFile, List.lookup]

theorem readFile_emit (w : World) (ev : Event) (p : String) :
    (w.emit ev).readFile p = w.readFile p := rfl

theorem filesKept_refl (w : World) : filesKept w w := fun _ _ h => h

theorem filesKept_trans (a b c : World) (h1 : filesKept a b) (h2 : filesKept b c) :
    filesKept a c := fun p x h => h2 p x (h1 p x h)

theorem filesKept_write_absent (w : World) (q : String) (c : Content)
    (h : w.readFile q = none) : filesKept w (w.writeFile q c) := by
  intro p x hp
  by_cases hpq : p = q
  · subst hpq
    rw [h] at hp
    exact absurd hp (by simp)
  · rw [readFile_writeFile_ne w p q c hpq]
    exact hp

theorem filesKept_write_twice (w : World) (ev : Event) (q : String) (c d : Content)
    (h : w.readFile q = none) :
    filesKept w (((w.writeFile q c).emit ev).writeFile q d) := by
  intro p x hp
  by_cases hpq : p = q
  · subst hpq
    rw [h] at hp
    exact absurd hp (by simp)
  · rw [readFile_writeFile_ne _ p q d hpq, readFile_emit, readFile_writeFile_ne w p q c hpq]
    exact hp

theorem DownloadFile_filesKept (env : Env) (cfg : Options) (urlStr : String) (w : World) :
    filesKept w (DownloadFile env cfg urlStr w).2 := by
  unfold DownloadFile
  simp only
  split
  · exact filesKept_refl w
  · split
    · exact filesKept_refl w
    · rename_i habsent
      split
      · exact filesKept_refl w
      · split
        · exact filesKept_write_absent w _ _ habsent
        · split
          · exact filesKept_write_absent w _ _ habsent
          · split
            · exact filesKept_write_absent w _ _ habsent
            · split
              · exact filesKept_write_twice w _ _ _ _ habsent
              · exact filesKept_write_twice w _ _ _ _ habsent

theorem DownloadFile_ok (env : Env) (cfg : Options) (urlStr arch : String) (w w1 : World)
    (h : DownloadFile env cfg urlStr w = (Except.ok arch, w1)) :
    arch = cachePath env cfg urlStr ∧ env.mkdirAll cfg.PackagePath = none ∧
      ∃ c, w1.readFile arch = some c := by
  unfold DownloadFile at h
  simp only at h
  split at h
  · simp at h
  · rename_i hmk
    split at h
    · rename_i c hc
      simp only [Prod.mk.injEq, Except.ok.injEq] at h
      obtain ⟨h1, h2⟩ := h
      subst h1
      subst h2
      exact ⟨rfl, hmk, c, hc⟩
    · split at h
      · simp at h
      · split at h
        · simp at h
        · split at h
          · simp at h
          · split at h
            · simp at h
            · split at h
              · simp at h
              · simp only [Prod.mk.injEq, Except.ok.injEq] at h
                obtain ⟨h1, h2⟩ := h
                subst h1
                subst h2
                exact ⟨rfl, hmk, _, readFile_writeFile_same _ _ _⟩

theorem DownloadFile_cached (env : Env) (cfg : Options) (urlStr : String) (v : World)
    (c : Content) (hmk : env.mkdirAll cfg.PackagePath = none)
    (hc : v.readFile (cachePath env cfg urlStr) = some c) :
    DownloadFile env cfg urlStr v = (Except.ok (cachePath env cfg urlStr), v) := by
  unfold cachePath at hc
  unfold DownloadFile
  simp only [hmk, hc]
  rfl

theorem MustAdd_files (env : Env) (i : IndexFile) (md : Metadata)
    (filename baseURL digest : String) (w : World) :
    (i.MustAdd env md filename baseURL digest w).2.2.files = w.files := by
  unfold IndexFile.MustAdd
  split <;> simp [World.now]

theorem addToIndexFile_filesKept (env : Env) (cfg : Options) (indexFile : IndexFile)
    (url : String) (w : World) :
    filesKept w (addToIndexFile env cfg indexFile url w).2.2 := by
  have h1 := DownloadFile_filesKept env cfg url w
  unfold addToIndexFile
  rcases hd : DownloadFile env cfg url w with ⟨r, w0⟩
  rw [hd] at h1
  cases r with
  | error e0 => exact h1
  | ok arch =>
    simp only
    split
    · exact h1
    · split
      · exact h1
      · intro p c hp
        have := h1 p c hp
        simp only [World.readFile] at this ⊢
        rw [MustAdd_files]
        exact this

theorem scanAsset_filesKept (env : Env) (cfg : Options) (asset : Asset) (indexFile : IndexFile)
    (w : World) : filesKept w (scanAsset env cfg asset indexFile w).2.2 := by
  rcases scanAsset_cases env cfg asset indexFile w with h | h | ⟨url, e, i1, w1, ha, h⟩ |
    ⟨url, i1, w1, ha, h⟩
  · rw [h]; exact filesKept_refl w
  · rw [h]; exact filesKept_refl w
  · have := addToIndexFile_filesKept env cfg indexFile url w
    rw [ha] at this
    rw [h]; exact this
  · have := addToIndexFile_filesKept env cfg indexFile url w
    rw [ha] at this
    rw [h]; exact this

theorem scanAssets_filesKept (env : Env) (cfg : Options) (assets : List Asset)
    (indexFile : IndexFile) (w : World) :
    filesKept w (scanAssets env cfg assets indexFile w).2.2 := by
  induction assets generalizing indexFile w with
  | nil => exact filesKept_refl w
  | cons a rest ih =>
    have h1 := scanAsset_filesKept env cfg a indexFile w
    rcases hs : scanAsset env cfg a indexFile w with ⟨st, i1, w1⟩
    rw [hs] at h1
    cases st with
    | next =>
      simp only [scanAssets, hs]
      exact filesKept_trans _ _ _ h1 (ih i1 w1)
    | added => simpa only [scanAssets, hs] using h1
    | fail e => simpa only [scanAssets, hs] using h1
    | crash => simpa only [scanAssets, hs] using h1

theorem scanReleases_filesKept (env : Env) (cfg : Options) (releases : List Release)
    (update : Bool) (indexFile : IndexFile) (w : World) :
    filesKept w (scanReleases env cfg releases update indexFile w).2.2 := by
  induction releases generalizing update indexFile w with
  | nil => exact filesKept_refl w
  | cons r rest ih =>
    have h1 := scanAssets_filesKept env cfg r.Assets indexFile w
    rcases hs : scanAssets env cfg r.Assets indexFile w with ⟨st, i1, w1⟩
    rw [hs] at h1
    cases st with
    | next =>
      simp only [scanReleases, hs]
      exact filesKept_trans _ _ _ h1 (ih update i1 w1)
    | added =>
      simp only [scanReleases, hs]
      exact filesKept_trans _ _ _ h1 (ih true i1 w1)
    | fail e => simpa only [scanReleases, hs] using h1
    | crash => simpa only [scanReleases, hs] using h1

theorem cacheKept_of_filesKept (env : Env) (cfg : Options) (a b v : World)
    (h1 : filesKept a b) (h2 : cacheKept env cfg b v) : cacheKept env cfg a v :=
  fun u c h => h2 u c (h1 _ c h)

theorem cacheKept_of_files_eq (env : Env) (cfg : Options) (a v v1 : World)
    (h1 : cacheKept env cfg a v) (h2 : v1.files = v.files) : cacheKept env cfg a v1 := by
  intro u c h
  have := h1 u c h
  simp only [World.readFile] at this ⊢
  rw [h2]
  exact this

/-! ## Scanning again with the archives in the cache -/

theorem Get_isSome_congr (i j : IndexFile) (h : sameEntries i.Entries j.Entries)
    (name version : String) :
    (i.Get name version).isSome = (j.Get name version).isSome := by
  have key : ∀ l : List ChartVersion,
      (l.find? (fun cv => decide (cv.Metadata.Name = name ∧ cv.Metadata.Version = version))).isSome
        = true ↔ ∃ y ∈ l.map untimed, y.1.Name = name ∧ y.1.Version = version := by
    intro l
    rw [List.find?_isSome]
    constructor
    · rintro ⟨x, hx, hp⟩
      exact ⟨untimed x, List.mem_map_of_mem _ hx, by simpa [untimed] using hp⟩
    · rintro ⟨y, hy, hp⟩
      obtain ⟨x, hx, rfl⟩ := List.mem_map.1 hy
      exact ⟨x, hx, by simpa [untimed] using hp⟩
  unfold IndexFile.Get
  unfold sameEntries at h
  rw [Bool.eq_iff_iff, key, key, h]

theorem sameEntries_append (a b : List ChartVersion) (x y : ChartVersion)
    (h : sameEntries a b) (hxy : untimed x = untimed y) :
    sameEntries (a ++ [x]) (b ++ [y]) := by
  unfold sameEntries at *
  simp [List.map_append, h, hxy]

theorem addToIndexFile_replay (env : Env) (cfg : Options) (i i1 j : IndexFile) (url : String)
    (w w1 v : World)
    (h : addToIndexFile env cfg i url w = (none, i1, w1))
    (hij : sameEntries i.Entries j.Entries)
    (hkept : cacheKept env cfg w1 v) :
    ∃ j1, addToIndexFile env cfg j url v = (none, j1, { v with clock := v.clock + 1 }) ∧
      sameEntries i1.Entries j1.Entries := by
  unfold addToIndexFile at h
  rcases hd : DownloadFile env cfg url w with ⟨r, w0⟩
  rw [hd] at h
  cases r with
  | error e0 => simp at h
  | ok arch =>
    obtain ⟨harch, hmk, c, hc⟩ := DownloadFile_ok env cfg url arch w w0 hd
    simp only at h
    cases hl : loadFile env arch w0 with
    | error e0 => rw [hl] at h; simp at h
    | ok ch =>
      rw [hl] at h
      simp only at h
      cases hg : digestFile env arch w0 with
      | error e0 => rw [hg] at h; simp at h
      | ok hash =>
        rw [hg] at h
        simp only at h
        obtain ⟨hval, hi1, hw1⟩ := MustAdd_ok env _ _ _ _ _ _ _ _ h
        have hc1 : w1.readFile arch = some c := by
          rw [hw1]
          exact hc
        have hcv : v.readFile (cachePath env cfg url) = some c := by
          have := hkept url c
          rw [← harch] at this
          rw [← harch]
          exact this hc1
        have hlv : loadFile env arch v = Except.ok ch := by
          rw [harch]
          unfold loadFile at hl ⊢
          rw [hcv]
          rw [hc] at hl
          exact hl
        have hgv : digestFile env arch v = Except.ok hash := by
          rw [harch]
          unfold digestFile at hg ⊢
          rw [hcv]
          rw [hc] at hg
          exact hg
        refine ⟨{ j with Entries := j.Entries ++
          [{ Metadata := ch.Metadata,
             URLs := [if join ((split url '/').take ((split url '/').length - 1)) "/" = ""
               then base arch
               else join ((split url '/').take ((split url '/').length - 1)) "/" ++ "/" ++
                 base arch],
             Digest := hash, Created := v.clock }] }, ?_, ?_⟩
        · unfold addToIndexFile
          rw [DownloadFile_cached env cfg url v c hmk hcv, ← harch]
          simp only [hlv, hgv]
          unfold IndexFile.MustAdd
          simp only [hval, World.now]
        · rw [hi1]
          exact sameEntries_append _ _ _ _ hij rfl

theorem scanAsset_replay (env : Env) (cfg : Options) (asset : Asset) (i i1 j : IndexFile)
    (w w1 v : World) (st : Step)
    (h : scanAsset env cfg asset i w = (st, i1, w1))
    (hst : st = Step.next ∨ st = Step.added)
    (hij : sameEntries i.Entries j.Entries)
    (hkept : cacheKept env cfg w1 v) :
    ∃ j1 v1, scanAsset env cfg asset j v = (st, j1, v1) ∧ v1.files = v.files ∧
      v1.log = v.log ∧ v.clock ≤ v1.clock ∧ sameEntries i1.Entries j1.Entries := by
  unfold scanAsset at h ⊢
  cases hu : env.urlParse asset.URL with
  | none =>
    rw [hu] at h
    simp only [Prod.mk.injEq] at h
    rcases hst with hst | hst <;> rw [hst] at h <;> simp at h
  | some downloadURL =>
    rw [hu] at h
    simp only at h ⊢
    by_cases hext : ext (base downloadURL.Path) ≠ chartAssetFileExtension
    · rw [if_pos hext] at h ⊢
      simp only [Prod.mk.injEq] at h
      obtain ⟨h1, h2, _⟩ := h
      subst h1
      subst h2
      exact ⟨j, v, rfl, rfl, rfl, Nat.le_refl _, hij⟩
    · rw [if_neg hext] at h ⊢
      cases hsp : splitPackageNameAndVersion
          (trimSuffix (base downloadURL.Path) (ext (base downloadURL.Path))) with
      | none =>
        rw [hsp] at h
        simp only [Prod.mk.injEq] at h
        rcases hst with hst | hst <;> rw [hst] at h <;> simp at h
      | some tagParts =>
        rw [hsp] at h
        simp only at h ⊢
        cases h0 : tagParts[0]? with
        | none =>
          rw [h0] at h
          simp only [Prod.mk.injEq] at h
          rcases hst with hst | hst <;> rw [hst] at h <;> simp at h
        | some packageName =>
          cases h1 : tagParts[1]? with
          | none =>
            rw [h0, h1] at h
            simp only [Prod.mk.injEq] at h
            rcases hst with hst | hst <;> rw [hst] at h <;> simp at h
          | some packageVersion =>
            rw [h0, h1] at h
            simp only at h ⊢
            have hcongr := Get_isSome_congr i j hij packageName packageVersion
            cases hget : i.Get packageName packageVersion with
            | some cv =>
              rw [hget] at h hcongr
              simp only [Prod.mk.injEq] at h
              obtain ⟨e1, e2, _⟩ := h
              subst e1
              subst e2
              obtain ⟨cv2, hcv2⟩ := Option.isSome_iff_exists.1 hcongr.symm
              rw [hcv2]
              exact ⟨j, v, rfl, rfl, rfl, Nat.le_refl _, hij⟩
            | none =>
              rw [hget] at h hcongr
              have hjn : j.Get packageName packageVersion = none := by
                cases hj : j.Get packageName packageVersion with
                | none => rfl
                | some x => rw [hj] at hcongr; simp at hcongr
              rw [hjn]
              simp only at h ⊢
              rcases ha : addToIndexFile env cfg i downloadURL.Str w with ⟨oe, i2, w2⟩
              rw [ha] at h
              cases oe with
              | some e =>
                simp only [Prod.mk.injEq] at h
                rcases hst with hst | hst <;> rw [hst] at h <;> simp at h
              | none =>
                simp only [Prod.mk.injEq] at h
                obtain ⟨e1, e2, e3⟩ := h
                subst e1
                subst e2
                subst e3
                obtain ⟨j1, hj1, hsame⟩ :=
                  addToIndexFile_replay env cfg i i2 j downloadURL.Str w w2 v ha hij hkept
                rw [hj1]
                exact ⟨j1, _, rfl, rfl, rfl, Nat.le_succ _, hsame⟩

theorem scanAssets_replay (env : Env) (cfg : Options) (assets : List Asset)
    (i i1 j : IndexFile) (w w1 v : World) (st : Step)
    (h : scanAssets env cfg assets i w = (st, i1, w1))
    (hst : st = Step.next ∨ st = Step.added)
    (hij : sameEntries i.Entries j.Entries)
    (hkept : cacheKept env cfg w1 v) :
    ∃ j1 v1, scanAssets env cfg assets j v = (st, j1, v1) ∧ v1.files = v.files ∧
      v1.log = v.log ∧ v.clock ≤ v1.clock ∧ sameEntries i1.Entries j1.Entries := by
  induction assets generalizing i w j v with
  | nil =>
    simp only [scanAssets, Prod.mk.injEq] at h
    obtain ⟨e1, e2, _⟩ := h
    subst e1
    subst e2
    exact ⟨j, v, rfl, rfl, rfl, Nat.le_refl _, hij⟩
  | cons a rest ih =>
    rcases hs : scanAsset env cfg a i w with ⟨sa, ia, wa⟩
    cases sa with
    | next =>
      simp only [scanAssets, hs] at h
      have hk1 : filesKept wa w1 := by
        have := scanAssets_filesKept env cfg rest ia wa
        rw [h] at this
        exact this
      obtain ⟨ja, va, hja, hf, hl, hc, hsame⟩ :=
        scanAsset_replay env cfg a i ia j w wa v Step.next hs (Or.inl rfl) hij
          (cacheKept_of_filesKept env cfg wa w1 v hk1 hkept)
      obtain ⟨j1, v1, hj1, hf1, hl1, hc1, hsame1⟩ :=
        ih ia ja wa va h hsame (cacheKept_of_files_eq env cfg w1 v va hkept hf)
      refine ⟨j1, v1, ?_, hf1.trans hf, hl1.trans hl, Nat.le_trans hc hc1, hsame1⟩
      simp only [scanAssets, hja]
      exact hj1
    | added =>
      simp only [scanAssets, hs, Prod.mk.injEq] at h
      obtain ⟨e1, e2, e3⟩ := h
      subst e1
      subst e2
      subst e3
      obtain ⟨ja, va, hja, hf, hl, hc, hsame⟩ :=
        scanAsset_replay env cfg a i ia j w wa v Step.added hs (Or.inr rfl) hij hkept
      exact ⟨ja, va, by simp only [scanAssets, hja], hf, hl, hc, hsame⟩
    | fail e =>
      simp only [scanAssets, hs, Prod.mk.injEq] at h
      rcases hst with hst | hst <;> rw [hst] at h <;> simp at h
    | crash =>
      simp only [scanAssets, hs, Prod.mk.injEq] at h
      rcases hst with hst | hst <;> rw [hst] at h <;> simp at h

theorem scanReleases_replay (env : Env) (cfg : Options) (releases : List Release)
    (update b : Bool) (i i1 j : IndexFile) (w w1 v : World)
    (h : scanReleases env cfg releases update i w = (Res.ok b, i1, w1))
    (hij : sameEntries i.Entries j.Entries)
    (hkept : cacheKept env cfg w1 v) :
    ∃ j1 v1, scanReleases env cfg releases update j v = (Res.ok b, j1, v1) ∧
      v1.files = v.files ∧ v1.log = v.log ∧ v.clock ≤ v1.clock ∧
      sameEntries i1.Entries j1.Entries := by
  induction releases generalizing update i w j v with
  | nil =>
    simp only [scanReleases, Prod.mk.injEq, Res.ok.injEq] at h
    obtain ⟨e1, e2, _⟩ := h
    subst e1
    subst e2
    exact ⟨j, v, rfl, rfl, rfl, Nat.le_refl _, hij⟩
  | cons r rest ih =>
    rcases hs : scanAssets env cfg r.Assets i w with ⟨sa, ia, wa⟩
    cases sa with
    | next =>
      simp only [scanReleases, hs] at h
      have hk1 : filesKept wa w1 := by
        have := scanReleases_filesKept env cfg rest update ia wa
        rw [h] at this
        exact this
      obtain ⟨ja, va, hja, hf, hl, hc, hsame⟩ :=
        scanAssets_replay env cfg r.Assets i ia j w wa v Step.next hs (Or.inl rfl) hij
          (cacheKept_of_filesKept env cfg wa w1 v hk1 hkept)
      obtain ⟨j1, v1, hj1, hf1, hl1, hc1, hsame1⟩ :=
        ih update ia ja wa va h hsame (cacheKept_of_files_eq env cfg w1 v va hkept hf)
      refine ⟨j1, v1, ?_, hf1.trans hf, hl1.trans hl, Nat.le_trans hc hc1, hsame1⟩
      simp only [scanReleases, hja]
      exact hj1
    | added =>
      simp only [scanReleases, hs] at h
      have hk1 : filesKept wa w1 := by
        have := scanReleases_filesKept env cfg rest true ia wa
        rw [h] at this
        exact this
      obtain ⟨ja, va, hja, hf, hl, hc, hsame⟩ :=
        scanAssets_replay env cfg r.Assets i ia j w wa v Step.added hs (Or.inr rfl) hij
          (cacheKept_of_filesKept env cfg wa w1 v hk1 hkept)
      obtain ⟨j1, v1, hj1, hf1, hl1, hc1, hsame1⟩ :=
        ih true ia ja wa va h hsame (cacheKept_of_files_eq env cfg w1 v va hkept hf)
      refine ⟨j1, v1, ?_, hf1.trans hf, hl1.trans hl, Nat.le_trans hc hc1, hsame1⟩
      simp only [scanReleases, hja]
      exact hj1
    | fail e => simp [scanReleases, hs] at h
    | crash => simp [scanReleases, hs] at h

/-! ## Publication of the written catalog -/

theorem copyFile_readFile (env : Env) (srcFile dstFile p : String) (w : World)
    (h : p ≠ dstFile) : (copyFile env srcFile dstFile w).2.readFile p = w.readFile p := by
  unfold copyFile
  split
  · rfl
  · split
    · rfl
    · simp only
      split
      · exact readFile_writeFile_ne w p dstFile _ h
      · split
        · rw [readFile_writeFile_ne _ p dstFile _ h]
          exact readFile_writeFile_ne w p dstFile _ h
        · exact readFile_writeFile_ne w p dstFile _ h

theorem copyFile_clock (env : Env) (srcFile dstFile : String) (w : World) :
    (copyFile env srcFile dstFile w).2.clock = w.clock := by
  unfold copyFile
  split
  · rfl
  · split
    · rfl
    · simp only
      split
      · rfl
      · split <;> rfl

theorem publishIndex_spec (env : Env) (cfg : Options) (worktree indexYamlPath : String)
    (w : World) :
    (publishIndex env cfg worktree indexYamlPath w).1 ≠ Res.ok false ∧
    (publishIndex env cfg worktree indexYamlPath w).2.clock = w.clock ∧
    ∀ p, p ≠ indexYamlPath →
      (publishIndex env cfg worktree indexYamlPath w).2.readFile p = w.readFile p := by
  unfold publishIndex
  split
  · exact ⟨by simp, rfl, fun _ _ => rfl⟩
  · have hr := fun p => copyFile_readFile env cfg.IndexPath indexYamlPath p w
    have hc := copyFile_clock env cfg.IndexPath indexYamlPath w
    rcases hcopy : copyFile env cfg.IndexPath indexYamlPath w with ⟨oe, wc⟩
    rw [hcopy] at hc
    simp only [hcopy] at hr
    cases oe with
    | some e => exact ⟨by simp, hc, hr⟩
    | none =>
      simp only
      split
      · exact ⟨by simp, hc, hr⟩
      · split
        · exact ⟨by simp, hc, hr⟩
        · split
          · exact ⟨by simp, hc, hr⟩
          · split
            · split
              · exact ⟨by simp, hc, hr⟩
              · exact ⟨by simp, hc, hr⟩
            · split
              · simp only [randomString]
                split
                · exact ⟨by simp, hc, hr⟩
                · split
                  · exact ⟨by simp, hc, hr⟩
                  · exact ⟨by simp, hc, hr⟩
              · exact ⟨by simp, hc, hr⟩

/-! ## Running the reconciliation twice -/

theorem UpdateIndexFile_ok_true (env : Env) (cfg : Options) (w w1 : World)
    (releases : List Release)
    (hrel : env.ghGetReleases w.log = Except.ok releases)
    (hrun : UpdateIndexFile env cfg w = (Res.ok true, w1)) :
    ∃ i1 ws, scanReleases env cfg releases false (NewIndexFile w.clock)
        (w.now.2.emit Event.getReleases) = (Res.ok true, i1, ws) ∧
      env.mkdirAll (env.dirOf cfg.IndexPath) = none ∧
      env.writeFails cfg.IndexPath = none ∧
      publishIndex env cfg "" (env.joinPath "" "index.yaml")
        (catalogWritten cfg ⟨env.sortEntries i1.Entries, ws.clock⟩ ws.now.2) =
          (Res.ok true, w1) := by
  unfold UpdateIndexFile at hrun
  simp only [World.now] at hrun ⊢
  simp only [hrel] at hrun
  rcases hs : scanReleases env cfg releases false (NewIndexFile w.clock)
    ({ w with clock := w.clock + 1 }.emit Event.getReleases) with ⟨r, i1, ws⟩
  rw [hs] at hrun
  cases r with
  | err e => simp at hrun
  | crash => simp at hrun
  | ok b =>
    cases b with
    | false => simp [persistIndex] at hrun
    | true =>
      simp only [persistIndex, Bool.not_true, Bool.false_eq_true, if_false, World.now] at hrun
      cases hmk : env.mkdirAll (env.dirOf cfg.IndexPath) with
      | some e => rw [hmk] at hrun; simp at hrun
      | none =>
        rw [hmk] at hrun
        simp only at hrun
        cases hwf : env.writeFails cfg.IndexPath with
        | some e => rw [hwf] at hrun; simp at hrun
        | none =>
          rw [hwf] at hrun
          simp only at hrun
          exact ⟨i1, ws, hs, rfl, rfl, hrun⟩

theorem UpdateIndexFile_of_scan (env : Env) (cfg : Options) (w : World)
    (releases : List Release) (i1 : IndexFile) (ws : World)
    (hrel : env.ghGetReleases w.log = Except.ok releases)
    (hscan : scanReleases env cfg releases false (NewIndexFile w.clock)
        (w.now.2.emit Event.getReleases) = (Res.ok true, i1, ws))
    (hmk : env.mkdirAll (env.dirOf cfg.IndexPath) = none)
    (hwf : env.writeFails cfg.IndexPath = none) :
    UpdateIndexFile env cfg w =
      publishIndex env cfg "" (env.joinPath "" "index.yaml")
        (catalogWritten cfg ⟨env.sortEntries i1.Entries, ws.clock⟩ ws.now.2) := by
  unfold UpdateIndexFile
  simp only [World.now] at hscan ⊢
  simp only [hrel, hscan]
  simp only [persistIndex, Bool.not_true, Bool.false_eq_true, if_false, World.now, hmk, hwf]
  rfl

/-- C3 (amended): `UpdateIndexFile` never reads the persisted catalog; every run starts
from an empty one.  When a first run succeeds with `changed = true` and a second run
sees the same release list (the cached archives not being the catalog file or the
work-tree `index.yaml`), the second run downloads nothing, rebuilds the same entries up
to their creation times, writes the catalog again with a later `generated` stamp and
goes on to publish it: its result is never `changed = false`, and it is `changed = true`
when neither push nor pull-request mode is on. -/
theorem UpdateIndexFile_second_run (env : Env) (cfg : Options) (w w1 : World)
    (releases : List Release)
    (hrel1 : env.ghGetReleases w.log = Except.ok releases)
    (hrun1 : UpdateIndexFile env cfg w = (Res.ok true, w1))
    (hrel2 : env.ghGetReleases w1.log = Except.ok releases)
    (hpath : ∀ u, cachePath env cfg u ≠ cfg.IndexPath ∧
      cachePath env cfg u ≠ env.joinPath "" "index.yaml") :
    ∃ (es1 es2 : List ChartVersion) (g1 g2 : Nat) (wa wb : World),
      sameEntries es1 es2 ∧ g1 < g2 ∧
      UpdateIndexFile env cfg w =
        publishIndex env cfg "" (env.joinPath "" "index.yaml")
          (catalogWritten cfg ⟨env.sortEntries es1, g1⟩ wa) ∧
      UpdateIndexFile env cfg w1 =
        publishIndex env cfg "" (env.joinPath "" "index.yaml")
          (catalogWritten cfg ⟨env.sortEntries es2, g2⟩ wb) ∧
      wb.files = w1.files ∧ wb.log = w1.log ++ [Event.getReleases] ∧
      (UpdateIndexFile env cfg w1).1 ≠ Res.ok false ∧
      (cfg.Push = false → cfg.PR = false →
        UpdateIndexFile env cfg w1 =
          (Res.ok true, catalogWritten cfg ⟨env.sortEntries es2, g2⟩ wb)) := by
  obtain ⟨i1, ws, hscan1, hmk, hwf, hpub1⟩ :=
    UpdateIndexFile_ok_true env cfg w w1 releases hrel1 hrun1
  obtain ⟨_, hclock, hread⟩ := publishIndex_spec env cfg "" (env.joinPath "" "index.yaml")
    (catalogWritten cfg ⟨env.sortEntries i1.Entries, ws.clock⟩ ws.now.2)
  rw [hpub1] at hclock hread
  simp only at hclock hread
  have hw1clock : w1.clock = ws.clock + 1 := hclock
  have hkept : cacheKept env cfg ws (w1.now.2.emit Event.getReleases) := by
    intro u c hc
    have h1 := hread (cachePath env cfg u) (hpath u).2
    show w1.readFile (cachePath env cfg u) = some c
    rw [h1]
    unfold catalogWritten
    rw [readFile_writeFile_ne _ _ _ _ (hpath u).1]
    exact hc
  obtain ⟨j1, v1, hscan2, hf, hl, hc, hsame⟩ :=
    scanReleases_replay env cfg releases false true (NewIndexFile w.clock) i1
      (NewIndexFile w1.clock) (w.now.2.emit Event.getReleases) ws
      (w1.now.2.emit Event.getReleases) hscan1 rfl hkept
  have hrun2 := UpdateIndexFile_of_scan env cfg w1 releases j1 v1 hrel2 hscan2 hmk hwf
  refine ⟨i1.Entries, j1.Entries, ws.clock, v1.clock, ws.now.2, v1.now.2, hsame, ?_, ?_,
    hrun2, ?_, ?_, ?_, ?_⟩
  · have : w1.clock + 1 ≤ v1.clock := hc
    omega
  · rw [hrun1, hpub1]
  · exact hf
  · exact hl
  · rw [hrun2]
    exact (publishIndex_spec env cfg "" (env.joinPath "" "index.yaml") _).1
  · intro hpush hpr
    rw [hrun2]
    unfold publishIndex
    simp [hpush, hpr]

theorem testEnv_cachePath (releases : List Release) (existing refused u : String) :
    cachePath (testEnv releases existing refused) testOptions u ≠ testOptions.IndexPath ∧
    cachePath (testEnv releases existing refused) testOptions u ≠
      (testEnv releases existing refused).joinPath "" "index.yaml" := by
  have e : cachePath (testEnv releases existing refused) testOptions u =
      "pkgs" ++ "/" ++ base u := by
    simp [cachePath, testEnv, testOptions]
  rw [e]
  constructor
  · intro h
    have h2 := congrArg String.data h
    simp [testOptions] at h2
  · intro h
    have h2 := congrArg String.data h
    simp [testEnv] at h2

theorem UpdateIndexFile_second_run_witness :
    UpdateIndexFile (testEnv testReleases "" "") testOptions emptyWorld =
      (Res.ok true, indexedWorld) ∧
    (UpdateIndexFile (testEnv testReleases "" "") testOptions indexedWorld).1 ≠
      Res.ok false := by
  refine ⟨by decide, ?_⟩
  obtain ⟨_, _, _, _, _, _, _, _, _, _, _, _, h, _⟩ :=
    UpdateIndexFile_second_run (testEnv testReleases "" "") testOptions emptyWorld
      indexedWorld testReleases rfl (by decide) rfl (testEnv_cachePath testReleases "" "")
  exact h

/-- C3 (counterexample): in the test scenario the first run succeeds and persists its
catalog; run again on the state it leaves, against the same release list,
`UpdateIndexFile` returns `changed = true`, not `false`, and the catalog file it leaves
differs from the one the first run wrote. -/
theorem UpdateIndexFile_not_idempotent :
    UpdateIndexFile (testEnv testReleases "" "") testOptions emptyWorld =
      (Res.ok true, indexedWorld) ∧
    indexedWorld.readFile testOptions.IndexPath = some (Content.index testCatalog) ∧
    (UpdateIndexFile (testEnv testReleases "" "") testOptions indexedWorld).1 = Res.ok true ∧
    (UpdateIndexFile (testEnv testReleases "" "") testOptions indexedWorld).1 ≠ Res.ok false ∧
    (UpdateIndexFile (testEnv testReleases "" "") testOptions indexedWorld).2.readFile
      testOptions.IndexPath = some (Content.index testCatalogAgain) ∧
    testCatalogAgain ≠ testCatalog := by
  decide

/-! ## The repository URL of a catalog entry -/

theorem splitChars_ne_nil (c : Char) (l : List Char) : splitChars c l ≠ [] := by
  cases l with
  | nil => simp [splitChars]
  | cons x xs =>
    simp only [splitChars]
    split
    · simp
    · split <;> simp

theorem splitChars_of_not_mem (c : Char) (l : List Char) (h : c ∉ l) :
    splitChars c l = [l] := by
  induction l with
  | nil => rfl
  | cons x xs ih =>
    have hx : x ≠ c := fun e => h (by simp [e])
    have hxs : c ∉ xs := fun e => h (List.mem_cons_of_mem _ e)
    simp [splitChars, hx, ih hxs]

theorem splitChars_append (c : Char) (b f : List Char) (h : c ∉ f) :
    splitChars c (b ++ c :: f) = splitChars c b ++ [f] := by
  induction b with
  | nil => simp [splitChars, splitChars_of_not_mem c f h]
  | cons x xs ih =>
    by_cases hx : x = c
    · simp [splitChars, hx, ih]
    · simp only [List.cons_append, splitChars, hx, if_false]
      have ih2 : splitChars c (xs.append (c :: f)) = splitChars c xs ++ [f] := ih
      rw [ih2]
      cases hs : splitChars c xs with
      | nil => exact absurd hs (splitChars_ne_nil c xs)
      | cons a t => simp

theorem join_splitChars (l : List Char) :
    join ((splitChars '/' l).map String.mk) "/" = ⟨l⟩ := by
  induction l with
  | nil => rfl
  | cons x xs ih =>
    cases hs : splitChars '/' xs with
    | nil => exact absurd hs (splitChars_ne_nil '/' xs)
    | cons a t =>
      rw [hs] at ih
      by_cases hx : x = '/'
      · simp only [splitChars, hx, if_true, hs, List.map, join]
        rw [show join (String.mk a :: List.map String.mk t) "/" = ⟨xs⟩ from ih]
        apply String.ext
        simp [String.data_append]
      · simp only [splitChars, hx, if_false, hs, List.map]
        cases t with
        | nil =>
          simp only [List.map, join] at ih ⊢
          have : a = xs := by
            have := congrArg String.data ih
            simpa using this
          rw [this]
        | cons t1 t2 =>
          simp only [List.map, join] at ih ⊢
          apply String.ext
          have := congrArg String.data ih
          simp only [String.data_append] at this ⊢
          simp [← this]

theorem repositoryURL_append (baseURL file : String) (hfile : '/' ∉ file.data) :
    repositoryURL (baseURL ++ "/" ++ file) = baseURL := by
  have hdata : (baseURL ++ "/" ++ file).data = baseURL.data ++ '/' :: file.data := by
    simp [String.data_append]
  unfold repositoryURL split
  rw [hdata, splitChars_append '/' baseURL.data file.data hfile]
  simp only [List.map_append, List.map, List.length_append, List.length_map,
    List.length_singleton, Nat.add_sub_cancel]
  rw [List.take_left' (by simp)]
  exact join_splitChars baseURL.data

/-- C12: for a download URL `baseURL ++ "/" ++ file` whose `file` has no slash, the URL
split on "/", with its last segment dropped and re-joined with "/", is exactly `baseURL`;
re-appending `"/" ++ file` gives back the download URL; and this `baseURL` is the base
URL that `addToIndexFile` hands to the catalog's `MustAdd`, once the archive is
downloaded, loaded and hashed. -/
theorem addToIndexFile_repository_url (baseURL file : String) (hfile : '/' ∉ file.data) :
    repositoryURL (baseURL ++ "/" ++ file) = baseURL ∧
    repositoryURL (baseURL ++ "/" ++ file) ++ "/" ++ file = baseURL ++ "/" ++ file ∧
    (∀ (env : Env) (cfg : Options) (indexFile : IndexFile) (w w1 : World) (arch : String)
      (c : Chart) (hash : String),
      DownloadFile env cfg (baseURL ++ "/" ++ file) w = (Except.ok arch, w1) →
      loadFile env arch w1 = Except.ok c →
      digestFile env arch w1 = Except.ok hash →
      addToIndexFile env cfg indexFile (baseURL ++ "/" ++ file) w =
        indexFile.MustAdd env c.Metadata (base arch) baseURL hash w1) := by
  have hrepo := repositoryURL_append baseURL file hfile
  refine ⟨hrepo, by rw [hrepo], ?_⟩
  intro env cfg indexFile w w1 arch c hash hd hl hg
  unfold addToIndexFile
  simp only [hd, hl, hg]
  have : join ((split (baseURL ++ "/" ++ file) '/').take
      ((split (baseURL ++ "/" ++ file) '/').length - 1)) "/" = baseURL := hrepo
  rw [this]

theorem addToIndexFile_repository_url_witness :
    '/' ∉ "test-chart-0.1.0.tgz".data ∧
    repositoryURL "https://myrepo/charts/test-chart-0.1.0.tgz" = "https://myrepo/charts" ∧
    (addToIndexFile (testEnv testReleases "" "") testOptions (NewIndexFile 100)
      "https://myrepo/charts/test-chart-0.1.0.tgz" emptyWorld).2.1.Entries.map
        (fun cv => cv.URLs) = [["https://myrepo/charts/test-chart-0.1.0.tgz"]] :=
  ⟨by decide,
    (addToIndexFile_repository_url "https://myrepo/charts" "test-chart-0.1.0.tgz"
      (by decide)).1,
    by decide⟩

/-! ## One entry per release -/

theorem scanAsset_of_key (env : Env) (cfg : Options) (asset : Asset) (indexFile : IndexFile)
    (w : World) (downloadURL : URL) (packageName packageVersion : String)
    (h : assetKey env asset = some (downloadURL, packageName, packageVersion)) :
    scanAsset env cfg asset indexFile w =
      match indexFile.Get packageName packageVersion with
      | some _ => (Step.next, indexFile, w)
      | none =>
        match addToIndexFile env cfg indexFile downloadURL.Str w with
        | (some e, indexFile1, w1) => (Step.fail e, indexFile1, w1)
        | (none, indexFile1, w1) => (Step.added, indexFile1, w1) := by
  unfold assetKey at h
  unfold scanAsset
  cases hu : env.urlParse asset.URL with
  | none => rw [hu] at h; simp at h
  | some u =>
    rw [hu] at h
    simp only at h ⊢
    by_cases hext : ext (base u.Path) ≠ chartAssetFileExtension
    · rw [if_pos hext] at h; simp at h
    · rw [if_neg hext] at h ⊢
      cases hsp : splitPackageNameAndVersion
          (trimSuffix (base u.Path) (ext (base u.Path))) with
      | none => rw [hsp] at h; simp at h
      | some tagParts =>
        rw [hsp] at h
        simp only at h ⊢
        cases h0 : tagParts[0]? with
        | none => rw [h0] at h; simp at h
        | some n =>
          cases h1 : tagParts[1]? with
          | none => rw [h0, h1] at h; simp at h
          | some v =>
            rw [h0, h1] at h
            simp only [Option.some.injEq, Prod.mk.injEq] at h
            obtain ⟨e1, e2, e3⟩ := h
            subst e1
            subst e2
            subst e3
            rfl

theorem scanAsset_of_no_key (env : Env) (cfg : Options) (asset : Asset)
    (indexFile : IndexFile) (w : World) (h : assetKey env asset = none) :
    scanAsset env cfg asset indexFile w = (Step.next, indexFile, w) ∨
    scanAsset env cfg asset indexFile w = (Step.crash, indexFile, w) := by
  unfold assetKey at h
  unfold scanAsset
  cases hu : env.urlParse asset.URL with
  | none => exact Or.inr rfl
  | some u =>
    rw [hu] at h
    simp only at h ⊢
    by_cases hext : ext (base u.Path) ≠ chartAssetFileExtension
    · rw [if_pos hext]; exact Or.inl rfl
    · rw [if_neg hext] at h ⊢
      cases hsp : splitPackageNameAndVersion
          (trimSuffix (base u.Path) (ext (base u.Path))) with
      | none => exact Or.inr rfl
      | some tagParts =>
        rw [hsp] at h
        simp only at h ⊢
        cases h0 : tagParts[0]? with
        | none => exact Or.inr rfl
        | some n =>
          cases h1 : tagParts[1]? with
          | none => exact Or.inr rfl
          | some v => rw [h0, h1] at h; simp at h

theorem scanAsset_added (env : Env) (cfg : Options) (asset : Asset)
    (indexFile indexFile1 : IndexFile) (w w1 : World)
    (h : scanAsset env cfg asset indexFile w = (Step.added, indexFile1, w1)) :
    ∃ downloadURL packageName packageVersion,
      assetKey env asset = some (downloadURL, packageName, packageVersion) ∧
      indexFile.Get packageName packageVersion = none ∧
      addToIndexFile env cfg indexFile downloadURL.Str w = (none, indexFile1, w1) := by
  cases hk : assetKey env asset with
  | none =>
    rcases scanAsset_of_no_key env cfg asset indexFile w hk with h2 | h2 <;>
      rw [h2] at h <;> simp at h
  | some key =>
    obtain ⟨u, n, v⟩ := key
    rw [scanAsset_of_key env cfg asset indexFile w u n v hk] at h
    refine ⟨u, n, v, rfl, ?_⟩
    cases hg : indexFile.Get n v with
    | some cv => rw [hg] at h; simp at h
    | none =>
      rw [hg] at h
      simp only at h
      refine ⟨rfl, ?_⟩
      rcases ha : addToIndexFile env cfg indexFile u.Str w with ⟨oe, i2, w2⟩
      rw [ha] at h
      cases oe with
      | some e => simp at h
      | none =>
        simp only [Prod.mk.injEq, true_and] at h
        rw [h.1, h.2]

theorem addToIndexFile_ok_entries (env : Env) (cfg : Options) (indexFile indexFile1 : IndexFile)
    (url : String) (w w1 : World)
    (h : addToIndexFile env cfg indexFile url w = (none, indexFile1, w1)) :
    ∃ cv, indexFile1.Entries = indexFile.Entries ++ [cv] := by
  unfold addToIndexFile at h
  rcases hd : DownloadFile env cfg url w with ⟨r, w0⟩
  rw [hd] at h
  cases r with
  | error e0 => simp at h
  | ok arch =>
    simp only at h
    cases hl : loadFile env arch w0 with
    | error e0 => rw [hl] at h; simp at h
    | ok c =>
      rw [hl] at h
      simp only at h
      cases hg : digestFile env arch w0 with
      | error e0 => rw [hg] at h; simp at h
      | ok hash =>
        rw [hg] at h
        simp only at h
        obtain ⟨_, hi, _⟩ := MustAdd_ok env _ _ _ _ _ _ _ _ h
        exact ⟨_, by rw [hi]⟩

theorem addToIndexFile_err_index (env : Env) (cfg : Options) (indexFile indexFile1 : IndexFile)
    (url : String) (w w1 : World) (e : Error)
    (h : addToIndexFile env cfg indexFile url w = (some e, indexFile1, w1)) :
    indexFile1 = indexFile := by
  unfold addToIndexFile at h
  rcases hd : DownloadFile env cfg url w with ⟨r, w0⟩
  rw [hd] at h
  cases r with
  | error e0 =>
    simp only [Prod.mk.injEq] at h
    exact h.2.1.symm
  | ok arch =>
    simp only at h
    cases hl : loadFile env arch w0 with
    | error e0 =>
      rw [hl] at h
      simp only [Prod.mk.injEq] at h
      exact h.2.1.symm
    | ok c =>
      rw [hl] at h
      simp only at h
      cases hg : digestFile env arch w0 with
      | error e0 =>
        rw [hg] at h
        simp only [Prod.mk.injEq] at h
        exact h.2.1.symm
      | ok hash =>
        rw [hg] at h
        simp only at h
        exact (MustAdd_error env _ _ _ _ _ _ _ _ _ h).1

theorem scanAsset_entries (env : Env) (cfg : Options) (asset : Asset) (indexFile : IndexFile)
    (w : World) :
    (scanAsset env cfg asset indexFile w).2.1 = indexFile ∨
    ((scanAsset env cfg asset indexFile w).1 = Step.added ∧
      ∃ cv, (scanAsset env cfg asset indexFile w).2.1.Entries = indexFile.Entries ++ [cv]) := by
  rcases scanAsset_cases env cfg asset indexFile w with h | h | ⟨url, e, i1, w1, ha, h⟩ |
    ⟨url, i1, w1, ha, h⟩
  · rw [h]; exact Or.inl rfl
  · rw [h]; exact Or.inl rfl
  · rw [h]; exact Or.inl (addToIndexFile_err_index env cfg indexFile i1 url w w1 e ha)
  · rw [h]; exact Or.inr ⟨rfl, addToIndexFile_ok_entries env cfg indexFile i1 url w w1 ha⟩

theorem scanAssets_entries_le (env : Env) (cfg : Options) (assets : List Asset)
    (indexFile : IndexFile) (w : World) :
    (scanAssets env cfg assets indexFile w).2.1.Entries.length ≤
      indexFile.Entries.length + 1 := by
  induction assets generalizing indexFile w with
  | nil => simp [scanAssets]
  | cons a rest ih =>
    have h1 := scanAsset_entries env cfg a indexFile w
    rcases hs : scanAsset env cfg a indexFile w with ⟨st, i1, w1⟩
    rw [hs] at h1
    simp only at h1
    cases st with
    | next =>
      simp only [scanAssets, hs]
      rcases h1 with h1 | ⟨h1, _⟩
      · have := ih i1 w1
        rw [h1] at this ⊢
        exact this
      · simp at h1
    | added =>
      simp only [scanAssets, hs]
      rcases h1 with h1 | ⟨_, cv, h1⟩
      · rw [h1]; omega
      · rw [h1]; simp
    | fail e =>
      simp only [scanAssets, hs]
      rcases h1 with h1 | ⟨h1, _⟩
      · rw [h1]; omega
      · simp at h1
    | crash =>
      simp only [scanAssets, hs]
      rcases h1 with h1 | ⟨h1, _⟩
      · rw [h1]; omega
      · simp at h1

theorem scanReleases_entries_le (env : Env) (cfg : Options) (releases : List Release)
    (update : Bool) (indexFile : IndexFile) (w : World) :
    (scanReleases env cfg releases update indexFile w).2.1.Entries.length ≤
      indexFile.Entries.length + releases.length := by
  induction releases generalizing update indexFile w with
  | nil => simp [scanReleases]
  | cons r rest ih =>
    have h1 := scanAssets_entries_le env cfg r.Assets indexFile w
    rcases hs : scanAssets env cfg r.Assets indexFile w with ⟨st, i1, w1⟩
    rw [hs] at h1
    simp only at h1
    cases st with
    | next =>
      simp only [scanReleases, hs, List.length_cons]
      have := ih update i1 w1
      omega
    | added =>
      simp only [scanReleases, hs, List.length_cons]
      have := ih true i1 w1
      omega
    | fail e =>
      simp only [scanReleases, hs, List.length_cons]
      omega
    | crash =>
      simp only [scanReleases, hs, List.length_cons]
      omega

theorem scanAssets_skip (env : Env) (cfg : Options) (pre rest : List Asset)
    (indexFile : IndexFile) (w : World)
    (h : ∀ b ∈ pre, scanAsset env cfg b indexFile w = (Step.next, indexFile, w)) :
    scanAssets env cfg (pre ++ rest) indexFile w = scanAssets env cfg rest indexFile w := by
  induction pre with
  | nil => rfl
  | cons b bs ih =>
    rw [List.cons_append, scanAssets_cons_next env cfg b (bs ++ rest) indexFile indexFile w w
      (h b (List.mem_cons_self _ _))]
    exact ih (fun x hx => h x (List.mem_cons_of_mem _ hx))

theorem scanAsset_skipped (env : Env) (cfg : Options) (asset : Asset) (indexFile : IndexFile)
    (w : World)
    (h : isOtherFile env asset = true ∨
      ∃ u n v, assetKey env asset = some (u, n, v) ∧ indexFile.Has n v = true) :
    scanAsset env cfg asset indexFile w = (Step.next, indexFile, w) := by
  rcases h with h | ⟨u, n, v, hk, hhas⟩
  · exact scanAsset_other_file env cfg asset indexFile w h
  · rw [scanAsset_of_key env cfg asset indexFile w u n v hk]
    unfold IndexFile.Has at hhas
    obtain ⟨cv, hcv⟩ := Option.isSome_iff_exists.1 hhas
    rw [hcv]

/-- C13: in the scan of a release, the first `.tgz` asset that is not yet in the catalog
(the assets before it being other files or already indexed) is added, when its archive
can be added, and the scan of the release ends there with the state that addition
left, whatever assets follow; so a release adds at most one entry and a pass over a
release list adds at most as many entries as there are releases.  A release bundling
`other-0.2.0.tgz` and `zeta-1.0.0.tgz` gets `other` / `0.2.0` indexed only. -/
theorem scanReleases_one_entry_per_release :
    (∀ (env : Env) (cfg : Options) (pre post : List Asset) (asset : Asset)
      (indexFile indexFile1 : IndexFile) (w w1 : World) (downloadURL : URL)
      (packageName packageVersion : String),
      (∀ b ∈ pre, isOtherFile env b = true ∨
        ∃ u n v, assetKey env b = some (u, n, v) ∧ indexFile.Has n v = true) →
      assetKey env asset = some (downloadURL, packageName, packageVersion) →
      indexFile.Has packageName packageVersion = false →
      addToIndexFile env cfg indexFile downloadURL.Str w = (none, indexFile1, w1) →
      scanAssets env cfg (pre ++ asset :: post) indexFile w = (Step.added, indexFile1, w1) ∧
      indexFile1.Entries.length = indexFile.Entries.length + 1) ∧
    (∀ (env : Env) (cfg : Options) (assets : List Asset) (indexFile : IndexFile) (w : World),
      (scanAssets env cfg assets indexFile w).2.1.Entries.length ≤
        indexFile.Entries.length + 1) ∧
    (∀ (env : Env) (cfg : Options) (releases : List Release) (update : Bool)
      (indexFile : IndexFile) (w : World),
      (scanReleases env cfg releases update indexFile w).2.1.Entries.length ≤
        indexFile.Entries.length + releases.length) ∧
    (scanReleases (testEnv bundleReleases "" "") testOptions bundleReleases false
      (NewIndexFile 100) testWorld).2.1.Entries.map entryKey = [("other", "0.2.0")] := by
  refine ⟨?_, scanAssets_entries_le, scanReleases_entries_le, by decide⟩
  intro env cfg pre post asset indexFile indexFile1 w w1 downloadURL packageName
    packageVersion hpre hkey hno hadd
  have hget : indexFile.Get packageName packageVersion = none := by
    unfold IndexFile.Has at hno
    cases hg : indexFile.Get packageName packageVersion with
    | none => rfl
    | some cv => rw [hg] at hno; simp at hno
  have hstep : scanAsset env cfg asset indexFile w = (Step.added, indexFile1, w1) := by
    rw [scanAsset_of_key env cfg asset indexFile w downloadURL packageName packageVersion hkey,
      hget]
    simp only [hadd]
  constructor
  · rw [scanAssets_skip env cfg pre (asset :: post) indexFile w
      (fun b hb => scanAsset_skipped env cfg b indexFile w (hpre b hb))]
    simp only [scanAssets, hstep]
  · obtain ⟨cv, hcv⟩ := addToIndexFile_ok_entries env cfg indexFile indexFile1 _ w w1 hadd
    rw [hcv]
    simp

theorem scanReleases_one_entry_per_release_witness :
    scanAssets (testEnv bundleReleases "" "") testOptions
      ([] ++ { Path := "other-0.2.0.tgz", URL := "https://myrepo/charts/other-0.2.0.tgz" } ::
        [{ Path := "zeta-1.0.0.tgz", URL := "https://myrepo/charts/zeta-1.0.0.tgz" }])
      (NewIndexFile 100) testWorld =
      (Step.added,
        (addToIndexFile (testEnv bundleReleases "" "") testOptions (NewIndexFile 100)
          "https://myrepo/charts/other-0.2.0.tgz" testWorld).2.1,
        (addToIndexFile (testEnv bundleReleases "" "") testOptions (NewIndexFile 100)
          "https://myrepo/charts/other-0.2.0.tgz" testWorld).2.2) :=
  (scanReleases_one_entry_per_release.1 (testEnv bundleReleases "" "") testOptions []
    [{ Path := "zeta-1.0.0.tgz", URL := "https://myrepo/charts/zeta-1.0.0.tgz" }]
    { Path := "other-0.2.0.tgz", URL := "https://myrepo/charts/other-0.2.0.tgz" }
    (NewIndexFile 100) _ testWorld _
    { Path := "/charts/other-0.2.0.tgz", Str := "https://myrepo/charts/other-0.2.0.tgz" }
    "other" "0.2.0" (by simp) (by decide) (by decide) (by decide)).1

/-! ## Uniqueness of the catalog keys -/

theorem Get_none_iff (indexFile : IndexFile) (name version : String) :
    indexFile.Get name version = none ↔
      (name, version) ∉ indexFile.Entries.map entryKey := by
  unfold IndexFile.Get
  rw [List.find?_eq_none]
  constructor
  · intro h hmem
    obtain ⟨cv, hcv, hk⟩ := List.mem_map.1 hmem
    apply h cv hcv
    simp only [entryKey, Prod.mk.injEq] at hk
    simp [hk.1, hk.2]
  · intro h cv hcv hp
    apply h
    refine List.mem_map.2 ⟨cv, hcv, ?_⟩
    simp only [decide_eq_true_eq] at hp
    simp [entryKey, hp.1, hp.2]

theorem Has_append_of_none (indexFile : IndexFile) (cv : ChartVersion) (name version : String)
    (hnone : indexFile.Get name version = none)
    (hhas : IndexFile.Has { indexFile with Entries := indexFile.Entries ++ [cv] }
      name version = true) :
    entryKey cv = (name, version) := by
  unfold IndexFile.Has IndexFile.Get at hhas
  unfold IndexFile.Get at hnone
  simp only [List.find?_append, hnone, Option.none_or] at hhas
  by_cases hp : cv.Metadata.Name = name ∧ cv.Metadata.Version = version
  · simp [entryKey, hp.1, hp.2]
  · simp [List.find?, hp] at hhas

theorem scanAsset_unique (env : Env) (cfg : Options) (asset : Asset)
    (indexFile indexFile1 : IndexFile) (w w1 : World) (st : Step)
    (hu : uniqueKeys indexFile)
    (h : scanAsset env cfg asset indexFile w = (st, indexFile1, w1))
    (hstored : st = Step.added → storedUnderFileName env asset indexFile1 = true) :
    uniqueKeys indexFile1 := by
  by_cases hst : st = Step.added
  · subst hst
    obtain ⟨u, n, v, hk, hnone, hadd⟩ := scanAsset_added env cfg asset indexFile indexFile1 w w1 h
    obtain ⟨cv, hcv⟩ := addToIndexFile_ok_entries env cfg indexFile indexFile1 _ w w1 hadd
    have hs := hstored rfl
    unfold storedUnderFileName at hs
    rw [hk] at hs
    simp only at hs
    have hi1 : indexFile1 = { indexFile1 with Entries := indexFile.Entries ++ [cv] } := by
      rw [← hcv]
    have hnone1 : IndexFile.Get { indexFile1 with Entries := indexFile.Entries } n v = none :=
      hnone
    have hkey : entryKey cv = (n, v) := by
      apply Has_append_of_none { indexFile1 with Entries := indexFile.Entries } cv n v hnone1
      rw [hi1] at hs
      exact hs
    unfold uniqueKeys at hu ⊢
    rw [hcv, List.map_append, List.map_singleton, hkey]
    refine List.Nodup.append hu (List.nodup_singleton _) ?_
    intro x hx1 hx2
    rw [List.mem_singleton] at hx2
    subst hx2
    exact (Get_none_iff indexFile _ _).1 hnone hx1
  · have h1 := scanAsset_entries env cfg asset indexFile w
    rw [h] at h1
    simp only at h1
    rcases h1 with h1 | ⟨h1, _⟩
    · rw [h1]; exact hu
    · exact absurd h1 hst

theorem scanAssets_unique (env : Env) (cfg : Options) (assets : List Asset)
    (indexFile : IndexFile) (w : World) (hu : uniqueKeys indexFile)
    (hstored : assetsStoredUnderFileName env cfg assets indexFile w = true) :
    uniqueKeys (scanAssets env cfg assets indexFile w).2.1 := by
  induction assets generalizing indexFile w with
  | nil => exact hu
  | cons a rest ih =>
    rcases hs : scanAsset env cfg a indexFile w with ⟨st, i1, w1⟩
    simp only [assetsStoredUnderFileName, hs] at hstored
    cases st with
    | next =>
      simp only [scanAssets, hs]
      simp only at hstored
      exact ih i1 w1 (scanAsset_unique env cfg a indexFile i1 w w1 Step.next hu hs
        (fun e => by simp at e)) hstored
    | added =>
      simp only [scanAssets, hs]
      simp only at hstored
      exact scanAsset_unique env cfg a indexFile i1 w w1 Step.added hu hs (fun _ => hstored)
    | fail e =>
      simp only [scanAssets, hs]
      exact scanAsset_unique env cfg a indexFile i1 w w1 (Step.fail e) hu hs
        (fun e => by simp at e)
    | crash =>
      simp only [scanAssets, hs]
      exact scanAsset_unique env cfg a indexFile i1 w w1 Step.crash hu hs
        (fun e => by simp at e)

theorem scanReleases_unique (env : Env) (cfg : Options) (releases : List Release)
    (update : Bool) (indexFile : IndexFile) (w : World) (hu : uniqueKeys indexFile)
    (hstored : releasesStoredUnderFileName env cfg releases indexFile w = true) :
    uniqueKeys (scanReleases env cfg releases update indexFile w).2.1 := by
  induction releases generalizing update indexFile w with
  | nil => exact hu
  | cons r rest ih =>
    have h1 := scanAssets_unique env cfg r.Assets indexFile w hu
    rcases hs : scanAssets env cfg r.Assets indexFile w with ⟨st, i1, w1⟩
    simp only [releasesStoredUnderFileName, hs, Bool.and_eq_true] at hstored
    rw [hs] at h1
    simp only at h1
    cases st with
    | next =>
      simp only [scanReleases, hs]
      exact ih update i1 w1 (h1 hstored.1) hstored.2
    | added =>
      simp only [scanReleases, hs]
      exact ih true i1 w1 (h1 hstored.1) hstored.2
    | fail e =>
      simp only [scanReleases, hs]
      exact h1 hstored.1
    | crash =>
      simp only [scanReleases, hs]
      exact h1 hstored.1

/-- C11 (amended): when every entry the scan adds is stored under the (name, version) pair
derived from the file name of the asset it was added for, that is, when the metadata
read from each downloaded archive agree with the asset's file name, the catalog built by
the scan of `UpdateIndexFile` from a catalog without duplicate keys (the empty one, in
`UpdateIndexFile`) has no two entries stored under the same (name, version) pair; nor has
the sorted and stamped catalog `UpdateIndexFile` writes, when sorting permutes the
entries. -/
theorem scanReleases_unique_keys (env : Env) (cfg : Options) (releases : List Release)
    (update : Bool) (indexFile : IndexFile) (w : World)
    (hu : uniqueKeys indexFile)
    (hstored : releasesStoredUnderFileName env cfg releases indexFile w = true) :
    uniqueKeys (scanReleases env cfg releases update indexFile w).2.1 ∧
    ((∀ l, (env.sortEntries l).Perm l) → ∀ t : Nat,
      uniqueKeys { Entries := env.sortEntries
                     (scanReleases env cfg releases update indexFile w).2.1.Entries,
                   Generated := t }) := by
  have h := scanReleases_unique env cfg releases update indexFile w hu hstored
  refine ⟨h, ?_⟩
  intro hperm t
  unfold uniqueKeys at h ⊢
  exact ((hperm _).map entryKey).nodup_iff.2 h

theorem scanReleases_unique_keys_witness :
    releasesStoredUnderFileName (testEnv repeatedReleases "" "") testOptions repeatedReleases
      (NewIndexFile 100) emptyWorld = true ∧
    uniqueKeys (scanReleases (testEnv repeatedReleases "" "") testOptions repeatedReleases
      false (NewIndexFile 100) emptyWorld).2.1 ∧
    (scanReleases (testEnv repeatedReleases "" "") testOptions repeatedReleases
      false (NewIndexFile 100) emptyWorld).2.1.Entries.map entryKey =
        [("test-chart", "0.1.0")] :=
  ⟨by decide,
    (scanReleases_unique_keys (testEnv repeatedReleases "" "") testOptions repeatedReleases
      false (NewIndexFile 100) emptyWorld List.nodup_nil (by decide)).1,
    by decide⟩

/-- C11 (counterexample): two releases expose the archive of the chart `test-chart` /
`0.1.0` under the file names `test-chart-0.1.0.tgz` and `chart-latest.tgz`.  The second
asset is looked up under the pair (`chart`, `latest`) of its file name, is not found, and
is added under the metadata of its archive: `UpdateIndexFile` succeeds and writes a
catalog with two entries stored under (`test-chart`, `0.1.0`). -/
theorem UpdateIndexFile_duplicate_keys :
    renamedEnv.ghGetReleases emptyWorld.log = Except.ok renamedReleases ∧
    (UpdateIndexFile renamedEnv testOptions emptyWorld).1 = Res.ok true ∧
    (UpdateIndexFile renamedEnv testOptions emptyWorld).2.readFile testOptions.IndexPath =
      some (Content.index duplicateCatalog) ∧
    duplicateCatalog.Entries.map entryKey =
      [("test-chart", "0.1.0"), ("test-chart", "0.1.0")] ∧
    ¬ uniqueKeys duplicateCatalog := by
  refine ⟨rfl, by decide, by decide, by decide, ?_⟩
  unfold uniqueKeys
  decide

/-! ## The catalog is written only after a successful scan that added an entry -/

theorem scanReleases_all_skipped (env : Env) (cfg : Options) (releases : List Release)
    (update : Bool) (indexFile : IndexFile) (w : World)
    (h : ∀ r ∈ releases, ∀ a ∈ r.Assets,
      scanAsset env cfg a indexFile w = (Step.next, indexFile, w)) :
    scanReleases env cfg releases update indexFile w = (Res.ok update, indexFile, w) := by
  induction releases with
  | nil => rfl
  | cons r rest ih =>
    have hr : scanAssets env cfg r.Assets indexFile w = (Step.next, indexFile, w) := by
      have := scanAssets_skip env cfg r.Assets [] indexFile w
        (h r (List.mem_cons_self _ _))
      rw [List.append_nil] at this
      rw [this]
      rfl
    simp only [scanReleases, hr]
    exact ih (fun x hx => h x (List.mem_cons_of_mem _ hx))

theorem scanReleases_append (env : Env) (cfg : Options) (pre post : List Release)
    (update update1 : Bool) (indexFile indexFile1 : IndexFile) (w w1 : World)
    (h : scanReleases env cfg pre update indexFile w = (Res.ok update1, indexFile1, w1)) :
    scanReleases env cfg (pre ++ post) update indexFile w =
      scanReleases env cfg post update1 indexFile1 w1 := by
  induction pre generalizing update indexFile w with
  | nil =>
    simp only [scanReleases, Prod.mk.injEq, Res.ok.injEq] at h
    obtain ⟨e1, e2, e3⟩ := h
    subst e1
    subst e2
    subst e3
    rfl
  | cons r rest ih =>
    rcases hs : scanAssets env cfg r.Assets indexFile w with ⟨st, i1, w0⟩
    cases st with
    | next =>
      simp only [scanReleases, hs] at h
      simp only [List.cons_append, scanReleases, hs]
      exact ih update i1 w0 h
    | added =>
      simp only [scanReleases, hs] at h
      simp only [List.cons_append, scanReleases, hs]
      exact ih true i1 w0 h
    | fail e => simp [scanReleases, hs] at h
    | crash => simp [scanReleases, hs] at h

theorem addToIndexFile_of_stepFailure (env : Env) (cfg : Options) (indexFile : IndexFile)
    (url : String) (w w2 : World) (e : Error) (h : stepFailure env cfg url w e w2) :
    addToIndexFile env cfg indexFile url w = (some e, indexFile, w2) := by
  unfold addToIndexFile
  rcases h with ⟨e0, hd, he⟩ | ⟨arch, hd, ⟨e0, hl, he⟩ | ⟨c, hl, hg⟩⟩
  · simp only [hd, he]
  · simp only [hd, hl, he]
  · simp only [hd, hl, hg]

theorem sameOutsideCache_refl (env : Env) (cfg : Options) (w : World) :
    sameOutsideCache env cfg w w := fun _ _ => rfl

theorem sameOutsideCache_trans (env : Env) (cfg : Options) (a b c : World)
    (h1 : sameOutsideCache env cfg a b) (h2 : sameOutsideCache env cfg b c) :
    sameOutsideCache env cfg a c := fun p hp => (h2 p hp).trans (h1 p hp)

theorem sameOutsideCache_write (env : Env) (cfg : Options) (w : World) (urlStr : String)
    (c : Content) :
    sameOutsideCache env cfg w (w.writeFile (cachePath env cfg urlStr) c) :=
  fun p hp => readFile_writeFile_ne w p _ c (hp urlStr)

theorem sameOutsideCache_write_twice (env : Env) (cfg : Options) (w : World) (urlStr : String)
    (ev : Event) (c d : Content) :
    sameOutsideCache env cfg w
      (((w.writeFile (cachePath env cfg urlStr) c).emit ev).writeFile
        (cachePath env cfg urlStr) d) := by
  intro p hp
  rw [readFile_writeFile_ne _ p _ d (hp urlStr), readFile_emit,
    readFile_writeFile_ne w p _ c (hp urlStr)]

theorem DownloadFile_sameOutsideCache (env : Env) (cfg : Options) (urlStr : String)
    (w : World) : sameOutsideCache env cfg w (DownloadFile env cfg urlStr w).2 := by
  unfold DownloadFile
  simp only
  split
  · exact sameOutsideCache_refl env cfg w
  · split
    · exact sameOutsideCache_refl env cfg w
    · split
      · exact sameOutsideCache_refl env cfg w
      · split
        · exact sameOutsideCache_write env cfg w urlStr _
        · split
          · exact sameOutsideCache_write env cfg w urlStr _
          · split
            · exact sameOutsideCache_write env cfg w urlStr _
            · split
              · exact sameOutsideCache_write_twice env cfg w urlStr _ _ _
              · exact sameOutsideCache_write_twice env cfg w urlStr _ _ _

theorem addToIndexFile_sameOutsideCache (env : Env) (cfg : Options) (indexFile : IndexFile)
    (url : String) (w : World) :
    sameOutsideCache env cfg w (addToIndexFile env cfg indexFile url w).2.2 := by
  have h1 := DownloadFile_sameOutsideCache env cfg url w
  unfold addToIndexFile
  rcases hd : DownloadFile env cfg url w with ⟨r, w0⟩
  rw [hd] at h1
  cases r with
  | error e0 => exact h1
  | ok arch =>
    simp only
    split
    · exact h1
    · split
      · exact h1
      · intro p hp
        have := h1 p hp
        simp only [World.readFile] at this ⊢
        rw [MustAdd_files]
        exact this

theorem scanAsset_sameOutsideCache (env : Env) (cfg : Options) (asset : Asset)
    (indexFile : IndexFile) (w : World) :
    sameOutsideCache env cfg w (scanAsset env cfg asset indexFile w).2.2 := by
  rcases scanAsset_cases env cfg asset indexFile w with h | h | ⟨url, e, i1, w1, ha, h⟩ |
    ⟨url, i1, w1, ha, h⟩
  · rw [h]; exact sameOutsideCache_refl env cfg w
  · rw [h]; exact sameOutsideCache_refl env cfg w
  · have := addToIndexFile_sameOutsideCache env cfg indexFile url w
    rw [ha] at this
    rw [h]; exact this
  · have := addToIndexFile_sameOutsideCache env cfg indexFile url w
    rw [ha] at this
    rw [h]; exact this

theorem scanAssets_sameOutsideCache (env : Env) (cfg : Options) (assets : List Asset)
    (indexFile : IndexFile) (w : World) :
    sameOutsideCache env cfg w (scanAssets env cfg assets indexFile w).2.2 := by
  induction assets generalizing indexFile w with
  | nil => exact sameOutsideCache_refl env cfg w
  | cons a rest ih =>
    have h1 := scanAsset_sameOutsideCache env cfg a indexFile w
    rcases hs : scanAsset env cfg a indexFile w with ⟨st, i1, w1⟩
    rw [hs] at h1
    cases st with
    | next =>
      simp only [scanAssets, hs]
      exact sameOutsideCache_trans env cfg _ _ _ h1 (ih i1 w1)
    | added => simpa only [scanAssets, hs] using h1
    | fail e => simpa only [scanAssets, hs] using h1
    | crash => simpa only [scanAssets, hs] using h1

theorem scanReleases_sameOutsideCache (env : Env) (cfg : Options) (releases : List Release)
    (update : Bool) (indexFile : IndexFile) (w : World) :
    sameOutsideCache env cfg w (scanReleases env cfg releases update indexFile w).2.2 := by
  induction releases generalizing update indexFile w with
  | nil => exact sameOutsideCache_refl env cfg w
  | cons r rest ih =>
    have h1 := scanAssets_sameOutsideCache env cfg r.Assets indexFile w
    rcases hs : scanAssets env cfg r.Assets indexFile w with ⟨st, i1, w1⟩
    rw [hs] at h1
    cases st with
    | next =>
      simp only [scanReleases, hs]
      exact sameOutsideCache_trans env cfg _ _ _ h1 (ih update i1 w1)
    | added =>
      simp only [scanReleases, hs]
      exact sameOutsideCache_trans env cfg _ _ _ h1 (ih true i1 w1)
    | fail e => simpa only [scanReleases, hs] using h1
    | crash => simpa only [scanReleases, hs] using h1

theorem copyFile_log (env : Env) (srcFile dstFile : String) (w : World) :
    (copyFile env srcFile dstFile w).2.log = w.log := by
  unfold copyFile
  split
  · rfl
  · split
    · rfl
    · simp only
      split
      · rfl
      · split <;> rfl

theorem publishIndex_log (env : Env) (cfg : Options) (worktree indexYamlPath : String)
    (w : World) :
    ∃ evs, (publishIndex env cfg worktree indexYamlPath w).2.log = w.log ++ evs ∧
      ∀ ev ∈ evs, ¬ isCatalogWrite ev := by
  have hnil : ∀ ev ∈ ([] : List Event), ¬ isCatalogWrite ev := by simp
  unfold publishIndex
  split
  · exact ⟨[], by simp, hnil⟩
  · have hl := copyFile_log env cfg.IndexPath indexYamlPath w
    rcases hcopy : copyFile env cfg.IndexPath indexYamlPath w with ⟨oe, wc⟩
    rw [hcopy] at hl
    simp only at hl
    cases oe with
    | some e => exact ⟨[], by simp [hl], hnil⟩
    | none =>
      simp only
      split
      · exact ⟨_, by simp only [World.emit, hl]; rfl, by simp [isCatalogWrite]⟩
      · split
        · exact ⟨_, by simp only [World.emit, hl, List.append_assoc]; rfl,
            by simp [isCatalogWrite]⟩
        · split
          · exact ⟨_, by simp only [World.emit, hl, List.append_assoc]; rfl,
              by simp [isCatalogWrite]⟩
          · split
            · split
              · exact ⟨_, by simp only [World.emit, hl, List.append_assoc]; rfl,
                  by simp [isCatalogWrite]⟩
              · exact ⟨_, by simp only [World.emit, hl, List.append_assoc]; rfl,
                  by simp [isCatalogWrite]⟩
            · split
              · simp only [randomString]
                split
                · exact ⟨_, by simp only [World.emit, hl, List.append_assoc]; rfl,
                    by simp [isCatalogWrite]⟩
                · split
                  · exact ⟨_, by simp only [World.emit, hl, List.append_assoc]; rfl,
                      by simp [isCatalogWrite]⟩
                  · exact ⟨_, by simp only [World.emit, hl, List.append_assoc]; rfl,
                      by simp [isCatalogWrite]⟩
              · exact ⟨_, by simp only [World.emit, hl, List.append_assoc]; rfl,
                  by simp [isCatalogWrite]⟩

theorem scanAssets_entries_ge (env : Env) (cfg : Options) (assets : List Asset)
    (indexFile : IndexFile) (w : World) :
    indexFile.Entries.length ≤ (scanAssets env cfg assets indexFile w).2.1.Entries.length ∧
    ((scanAssets env cfg assets indexFile w).1 = Step.added →
      indexFile.Entries.length < (scanAssets env cfg assets indexFile w).2.1.Entries.length) := by
  induction assets generalizing indexFile w with
  | nil => simp [scanAssets]
  | cons a rest ih =>
    have h1 := scanAsset_entries env cfg a indexFile w
    rcases hs : scanAsset env cfg a indexFile w with ⟨st, i1, w1⟩
    rw [hs] at h1
    simp only at h1
    cases st with
    | next =>
      simp only [scanAssets, hs]
      rcases h1 with h1 | ⟨h1, _⟩
      · subst h1
        exact ih i1 w1
      · simp at h1
    | added =>
      simp only [scanAssets, hs]
      rcases h1 with h1 | ⟨_, cv, h1⟩
      · obtain ⟨cv, hcv⟩ : ∃ cv, i1.Entries = indexFile.Entries ++ [cv] := by
          rcases scanAsset_cases env cfg a indexFile w with h | h | ⟨url, e, i2, w2, _, h⟩ |
            ⟨url, i2, w2, ha, h⟩
          · rw [h] at hs; simp at hs
          · rw [h] at hs; simp at hs
          · rw [h] at hs; simp at hs
          · rw [h] at hs
            simp only [Prod.mk.injEq, true_and] at hs
            rw [← hs.1]
            exact addToIndexFile_ok_entries env cfg indexFile i2 url w w2 ha
        rw [hcv]
        simp
      · rw [h1]
        simp
    | fail e =>
      simp only [scanAssets, hs]
      rcases h1 with h1 | ⟨h1, _⟩
      · rw [h1]; simp
      · simp at h1
    | crash =>
      simp only [scanAssets, hs]
      rcases h1 with h1 | ⟨h1, _⟩
      · rw [h1]; simp
      · simp at h1

theorem scanReleases_ok_true (env : Env) (cfg : Options) (releases : List Release)
    (update : Bool) (indexFile indexFile1 : IndexFile) (w w1 : World)
    (h : scanReleases env cfg releases update indexFile w = (Res.ok true, indexFile1, w1)) :
    indexFile.Entries.length ≤ indexFile1.Entries.length ∧
    (update = true ∨ indexFile.Entries.length < indexFile1.Entries.length) := by
  induction releases generalizing update indexFile w with
  | nil =>
    simp only [scanReleases, Prod.mk.injEq, Res.ok.injEq] at h
    obtain ⟨e1, e2, _⟩ := h
    subst e2
    exact ⟨Nat.le_refl _, Or.inl e1⟩
  | cons r rest ih =>
    have h1 := scanAssets_entries_ge env cfg r.Assets indexFile w
    rcases hs : scanAssets env cfg r.Assets indexFile w with ⟨st, i1, w0⟩
    rw [hs] at h1
    simp only at h1
    cases st with
    | next =>
      simp only [scanReleases, hs] at h
      obtain ⟨h2, h3⟩ := ih update i1 w0 h
      refine ⟨Nat.le_trans h1.1 h2, ?_⟩
      rcases h3 with h3 | h3
      · exact Or.inl h3
      · exact Or.inr (Nat.lt_of_le_of_lt h1.1 h3)
    | added =>
      simp only [scanReleases, hs] at h
      obtain ⟨h2, _⟩ := ih true i1 w0 h
      exact ⟨Nat.le_trans h1.1 h2, Or.inr (Nat.lt_of_lt_of_le (h1.2 rfl) h2)⟩
    | fail e => simp [scanReleases, hs] at h
    | crash => simp [scanReleases, hs] at h

theorem downloadsOnly_not_write (evs : List Event) (h : downloadsOnly evs) :
    ∀ ev ∈ evs, ¬ isCatalogWrite ev := by
  intro ev hev hw
  obtain ⟨u, hu⟩ := h ev hev
  obtain ⟨p, i, hp⟩ := hw
  rw [hu] at hp
  simp at hp

theorem persistIndex_true_log (env : Env) (cfg : Options) (worktree indexYamlPath : String)
    (indexFile : IndexFile) (w : World) :
    ∃ evs, (persistIndex env cfg worktree indexYamlPath true indexFile w).2.log = w.log ++ evs ∧
      ∀ ev ∈ evs, isCatalogWrite ev →
        env.mkdirAll (env.dirOf cfg.IndexPath) = none ∧
        ev = Event.writeIndex cfg.IndexPath ⟨env.sortEntries indexFile.Entries, w.clock⟩ := by
  unfold persistIndex
  simp only [Bool.not_true, Bool.false_eq_true, if_false, World.now]
  cases hmk : env.mkdirAll (env.dirOf cfg.IndexPath) with
  | some e => exact ⟨[], by simp, by simp⟩
  | none =>
    simp only
    cases hwf : env.writeFails cfg.IndexPath with
    | some e =>
      refine ⟨[Event.writeIndex cfg.IndexPath ⟨env.sortEntries indexFile.Entries, w.clock⟩],
        rfl, ?_⟩
      intro ev hev _
      rw [List.mem_singleton] at hev
      exact ⟨trivial, hev⟩
    | none =>
      simp only
      obtain ⟨pevs, hp1, hp2⟩ := publishIndex_log env cfg worktree indexYamlPath
        (({ w with clock := w.clock + 1 }.emit
          (Event.writeIndex cfg.IndexPath
            ⟨env.sortEntries indexFile.Entries, w.clock⟩)).writeFile cfg.IndexPath
          (Content.index ⟨env.sortEntries indexFile.Entries, w.clock⟩))
      refine ⟨Event.writeIndex cfg.IndexPath ⟨env.sortEntries indexFile.Entries, w.clock⟩ ::
        pevs, ?_, ?_⟩
      · rw [hp1]
        simp [World.emit, World.writeFile]
      · intro ev hev hw
        rcases List.mem_cons.1 hev with h | h
        · exact ⟨trivial, h⟩
        · exact absurd hw (hp2 ev h)

theorem UpdateIndexFile_catalog_write (env : Env) (cfg : Options) (w : World) :
    ∃ evs, (UpdateIndexFile env cfg w).2.log = w.log ++ evs ∧
      ∀ ev ∈ evs, isCatalogWrite ev →
        ∃ releases indexFile1 ws, env.ghGetReleases w.log = Except.ok releases ∧
          scanReleases env cfg releases false (NewIndexFile w.clock)
            (w.now.2.emit Event.getReleases) = (Res.ok true, indexFile1, ws) ∧
          indexFile1.Entries ≠ [] ∧
          env.mkdirAll (env.dirOf cfg.IndexPath) = none ∧
          ev = Event.writeIndex cfg.IndexPath
            ⟨env.sortEntries indexFile1.Entries, ws.clock⟩ := by
  cases hrel : env.ghGetReleases w.log with
  | error e =>
    refine ⟨[Event.getReleases], ?_, ?_⟩
    · unfold UpdateIndexFile
      simp only [World.now, hrel]
      rfl
    · intro ev hev hw
      rw [List.mem_singleton] at hev
      obtain ⟨p, i, hp⟩ := hw
      rw [hev] at hp
      simp at hp
  | ok releases =>
    rcases hs : scanReleases env cfg releases false (NewIndexFile w.clock)
      (w.now.2.emit Event.getReleases) with ⟨r, i1, ws⟩
    obtain ⟨evs0, hl0, hd0⟩ := scanReleases_log env cfg releases false (NewIndexFile w.clock)
      (w.now.2.emit Event.getReleases)
    rw [hs] at hl0
    simp only at hl0
    have hstart : (w.now.2.emit Event.getReleases).log = w.log ++ [Event.getReleases] := rfl
    rw [hstart] at hl0
    by_cases hr : r = Res.ok true
    · subst hr
      have hrun : UpdateIndexFile env cfg w =
          persistIndex env cfg "" (env.joinPath "" "index.yaml") true i1 ws := by
        unfold UpdateIndexFile
        simp only [World.now] at hs ⊢
        simp only [hrel, hs]
      obtain ⟨pevs, hp1, hp2⟩ := persistIndex_true_log env cfg "" (env.joinPath "" "index.yaml")
        i1 ws
      refine ⟨[Event.getReleases] ++ evs0 ++ pevs, ?_, ?_⟩
      · rw [hrun, hp1, hl0]
        simp
      · intro ev hev hw
        rcases List.mem_append.1 hev with h | h
        · rcases List.mem_append.1 h with h | h
          · rw [List.mem_singleton] at h
            obtain ⟨p, i, hp⟩ := hw
            rw [h] at hp
            simp at hp
          · exact absurd hw (downloadsOnly_not_write evs0 hd0 ev h)
        · obtain ⟨hmk, hev2⟩ := hp2 ev h hw
          have hne : i1.Entries ≠ [] := by
            have := (scanReleases_ok_true env cfg releases false _ _ _ _ hs).2
            rcases this with h3 | h3
            · simp at h3
            · intro hnil
              rw [hnil] at h3
              simp at h3
          exact ⟨releases, i1, ws, rfl, hs, hne, hmk, hev2⟩
    · have hout := (UpdateIndexFile_scan_outcome env cfg w releases r i1 ws hrel hs hr).1
      refine ⟨[Event.getReleases] ++ evs0, ?_, ?_⟩
      · rw [hout]
        simp only
        rw [hl0, List.append_assoc]
      · intro ev hev hw
        rcases List.mem_append.1 hev with h | h
        · rw [List.mem_singleton] at h
          obtain ⟨p, i, hp⟩ := hw
          rw [h] at hp
          simp at hp
        · exact absurd hw (downloadsOnly_not_write evs0 hd0 ev h)

theorem scanAsset_of_otherFiles_start (env : Env) (cfg : Options) (releases : List Release)
    (indexFile : IndexFile) (w : World)
    (h : ∀ r ∈ releases, ∀ a ∈ r.Assets, isOtherFile env a = true) :
    ∀ r ∈ releases, ∀ a ∈ r.Assets,
      scanAsset env cfg a indexFile w = (Step.next, indexFile, w) :=
  fun r hr a ha => scanAsset_other_file env cfg a indexFile w (h r hr a ha)

theorem scanReleases_step_failure (env : Env) (cfg : Options) (pre post : List Release)
    (release : Release) (apre apost : List Asset) (asset : Asset) (update : Bool)
    (indexFile indexFile1 : IndexFile) (w w1 w2 : World) (downloadURL : URL)
    (packageName packageVersion : String) (e : Error)
    (hpre : scanReleases env cfg pre false indexFile w = (Res.ok update, indexFile1, w1))
    (hassets : release.Assets = apre ++ asset :: apost)
    (hskip : ∀ b ∈ apre, isOtherFile env b = true ∨
      ∃ u n v, assetKey env b = some (u, n, v) ∧ indexFile1.Has n v = true)
    (hkey : assetKey env asset = some (downloadURL, packageName, packageVersion))
    (hno : indexFile1.Has packageName packageVersion = false)
    (hfail : stepFailure env cfg downloadURL.Str w1 e w2) :
    scanReleases env cfg (pre ++ release :: post) false indexFile w =
      (Res.err e, indexFile1, w2) := by
  rw [scanReleases_append env cfg pre (release :: post) false update indexFile indexFile1 w w1
    hpre]
  have hget : indexFile1.Get packageName packageVersion = none := by
    unfold IndexFile.Has at hno
    cases hg : indexFile1.Get packageName packageVersion with
    | none => rfl
    | some cv => rw [hg] at hno; simp at hno
  have hstep : scanAsset env cfg asset indexFile1 w1 = (Step.fail e, indexFile1, w2) := by
    rw [scanAsset_of_key env cfg asset indexFile1 w1 downloadURL packageName packageVersion
      hkey, hget]
    simp only [addToIndexFile_of_stepFailure env cfg indexFile1 downloadURL.Str w1 w2 e hfail]
  have hrelease : scanAssets env cfg release.Assets indexFile1 w1 =
      (Step.fail e, indexFile1, w2) := by
    rw [hassets, scanAssets_skip env cfg apre (asset :: apost) indexFile1 w1
      (fun b hb => scanAsset_skipped env cfg b indexFile1 w1 (hskip b hb))]
    simp only [scanAssets, hstep]
  simp only [scanReleases, hrelease]

/-- C7: `UpdateIndexFile` writes the catalog only after a scan that succeeded and added an
entry.  (1) When no entry is added, every asset of every release being a file other than
a chart archive, it returns `changed = false` without error, in the state the scan
started in: no file written, nothing issued after `GetReleases`.  (2) When a download,
metadata-extraction or digest step fails for an asset, after the releases before it were
scanned without error (entries added or not) and the assets before it in its release
were skipped, it returns `changed = false` with the error of that step and the state
the failing step left, whatever assets and releases follow; after `GetReleases` the
trace holds archive downloads only (no catalog write, no version-control call, no pull
request) and no file outside the download cache is touched, so the catalog file is as
before unless its path is a cache path.  (3) Every catalog write `UpdateIndexFile`
issues comes after a scan of the listed releases that ended without error with
`update = true` and a non-empty catalog, and writes that catalog, sorted. -/
theorem UpdateIndexFile_writes_only_after_scan :
    (∀ (env : Env) (cfg : Options) (w : World) (releases : List Release),
      env.ghGetReleases w.log = Except.ok releases →
      (∀ r ∈ releases, ∀ a ∈ r.Assets, isOtherFile env a = true) →
      UpdateIndexFile env cfg w = (Res.ok false, w.now.2.emit Event.getReleases)) ∧
    (∀ (env : Env) (cfg : Options) (w w1 w2 : World) (pre post : List Release)
      (release : Release) (apre apost : List Asset) (asset : Asset) (update : Bool)
      (indexFile1 : IndexFile) (downloadURL : URL) (packageName packageVersion : String)
      (e : Error),
      env.ghGetReleases w.log = Except.ok (pre ++ release :: post) →
      scanReleases env cfg pre false (NewIndexFile w.clock) (w.now.2.emit Event.getReleases) =
        (Res.ok update, indexFile1, w1) →
      release.Assets = apre ++ asset :: apost →
      (∀ b ∈ apre, isOtherFile env b = true ∨
        ∃ u n v, assetKey env b = some (u, n, v) ∧ indexFile1.Has n v = true) →
      assetKey env asset = some (downloadURL, packageName, packageVersion) →
      indexFile1.Has packageName packageVersion = false →
      stepFailure env cfg downloadURL.Str w1 e w2 →
      UpdateIndexFile env cfg w = (Res.err e, w2) ∧
      (∃ evs, w2.log = w.log ++ Event.getReleases :: evs ∧ downloadsOnly evs) ∧
      sameOutsideCache env cfg w w2 ∧
      ((∀ u, cfg.IndexPath ≠ cachePath env cfg u) →
        w2.readFile cfg.IndexPath = w.readFile cfg.IndexPath)) ∧
    (∀ (env : Env) (cfg : Options) (w : World) (ev : Event),
      ev ∈ (UpdateIndexFile env cfg w).2.log.drop w.log.length → isCatalogWrite ev →
      ∃ releases indexFile1 ws, env.ghGetReleases w.log = Except.ok releases ∧
        scanReleases env cfg releases false (NewIndexFile w.clock)
          (w.now.2.emit Event.getReleases) = (Res.ok true, indexFile1, ws) ∧
        indexFile1.Entries ≠ [] ∧
        ev = Event.writeIndex cfg.IndexPath
          ⟨env.sortEntries indexFile1.Entries, ws.clock⟩) := by
  refine ⟨?_, ?_, ?_⟩
  · intro env cfg w releases hrel hother
    have hscan := scanReleases_all_skipped env cfg releases false (NewIndexFile w.clock)
      (w.now.2.emit Event.getReleases)
      (scanAsset_of_otherFiles_start env cfg releases _ _ hother)
    exact (UpdateIndexFile_scan_outcome env cfg w releases (Res.ok false) _ _ hrel hscan
      (by simp)).1
  · intro env cfg w w1 w2 pre post release apre apost asset update indexFile1 downloadURL
      packageName packageVersion e hrel hpre hassets hskip hkey hno hfail
    have hscan := scanReleases_step_failure env cfg pre post release apre apost asset update
      (NewIndexFile w.clock) indexFile1 (w.now.2.emit Event.getReleases) w1 w2 downloadURL
      packageName packageVersion e hpre hassets hskip hkey hno hfail
    obtain ⟨hrun, hlog, _, _⟩ := UpdateIndexFile_scan_outcome env cfg w
      (pre ++ release :: post) (Res.err e) indexFile1 w2 hrel hscan (by simp)
    have hfiles : sameOutsideCache env cfg w w2 := by
      have := scanReleases_sameOutsideCache env cfg (pre ++ release :: post) false
        (NewIndexFile w.clock) (w.now.2.emit Event.getReleases)
      rw [hscan] at this
      intro p hp
      exact this p hp
    exact ⟨hrun, hlog, hfiles, fun hpath => hfiles cfg.IndexPath hpath⟩
  · intro env cfg w ev hev hw
    obtain ⟨evs, hlog, hwrites⟩ := UpdateIndexFile_catalog_write env cfg w
    rw [hlog, List.drop_left] at hev
    obtain ⟨releases, i1, ws, hrel, hscan, hne, _, hev2⟩ := hwrites ev hev hw
    exact ⟨releases, i1, ws, hrel, hscan, hne, hev2⟩

theorem UpdateIndexFile_writes_only_after_scan_witness :
    UpdateIndexFile (testEnv otherOnlyReleases "" "") testOptions emptyWorld =
      (Res.ok false, { emptyWorld with log := [Event.getReleases], clock := 101 }) ∧
    UpdateIndexFile (testEnv partlyMissingReleases "" "") testOptions emptyWorld =
      (Res.err (Error.wrap "err in download" (Error.msg "error response: 404 Not Found")),
        { files := [("pkgs/does-not-exist-0.1.0.tgz", Content.bytes ""),
                    ("pkgs/test-chart-0.1.0.tgz", Content.bytes "test-chart archive"),
                    ("pkgs/test-chart-0.1.0.tgz", Content.bytes "")],
          log := [Event.getReleases,
                  Event.httpGet "https://myrepo/charts/test-chart-0.1.0.tgz",
                  Event.httpGet "https://myrepo/charts/does-not-exist-0.1.0.tgz"],
          clock := 102, draws := 0 }) :=
  ⟨UpdateIndexFile_writes_only_after_scan.1 (testEnv otherOnlyReleases "" "") testOptions
      emptyWorld otherOnlyReleases rfl (by decide),
    (UpdateIndexFile_writes_only_after_scan.2.1 (testEnv partlyMissingReleases "" "")
      testOptions emptyWorld
      { files := [("pkgs/test-chart-0.1.0.tgz", Content.bytes "test-chart archive"),
                  ("pkgs/test-chart-0.1.0.tgz", Content.bytes "")],
        log := [Event.getReleases,
                Event.httpGet "https://myrepo/charts/test-chart-0.1.0.tgz"],
        clock := 102, draws := 0 }
      { files := [("pkgs/does-not-exist-0.1.0.tgz", Content.bytes ""),
                  ("pkgs/test-chart-0.1.0.tgz", Content.bytes "test-chart archive"),
                  ("pkgs/test-chart-0.1.0.tgz", Content.bytes "")],
        log := [Event.getReleases,
                Event.httpGet "https://myrepo/charts/test-chart-0.1.0.tgz",
                Event.httpGet "https://myrepo/charts/does-not-exist-0.1.0.tgz"],
        clock := 102, draws := 0 }
      testReleases []
      { Name := "does-not-exist-0.1.0", Description := "",
        Assets := [{ Path := "does-not-exist-0.1.0.tgz",
                     URL := "https://myrepo/charts/does-not-exist-0.1.0.tgz" }],
        Commit := "", GenerateReleaseNotes := false, MakeLatest := "" }
      [] []
      { Path := "does-not-exist-0.1.0.tgz",
        URL := "https://myrepo/charts/does-not-exist-0.1.0.tgz" }
      true
      { Entries := [{ Metadata := testChart.Metadata,
                      URLs := ["https://myrepo/charts/test-chart-0.1.0.tgz"],
                      Digest := "sha256:0123", Created := 101 }],
        Generated := 100 }
      { Path := "/charts/does-not-exist-0.1.0.tgz",
        Str := "https://myrepo/charts/does-not-exist-0.1.0.tgz" }
      "does-not-exist" "0.1.0"
      (Error.wrap "err in download" (Error.msg "error response: 404 Not Found"))
      rfl (by decide) rfl (by simp) (by decide) (by decide)
      (Or.inl ⟨Error.msg "error response: 404 Not Found", rfl, rfl⟩)).1⟩

end ChartReleaser
